import Mathlib

/-!
Verification of the `ease` encoding/quality-measurement tool core.

This file gives a shallow embedding, in Lean 4, of the parts of the
`evolution-gaming/ease` Go repository that the checked claims are about:

* the frame-metrics JSON codec (`internal/vqm` `FrameMetrics.ToJSON` /
  `FrameMetrics.FromJSON`),
* the alias-tolerant per-frame metric decoder (`metric.UnmarshalJSON`),
* the VQM tool lifecycle (`FfmpegVMAF.Measure` / `GetMetrics`),
* the size-capped output writer (`internal/lw` `LimitedWriter`),
* the encoding plan engine (`internal/encoding` `EncoderCmd.Run`,
  `Scheme.Expand`, `Plan.Run`),
* the concurrent metric store (`internal/metric` `Store`).

Modelling conventions:

* Go `float64` values are modelled as exact rationals (`Rat`).  The Go JSON
  encoder prints a finite `float64` in shortest form that parses back to the
  very same value, so at the level of abstract JSON values finite floats
  behave like exact numbers.
* Go `[]byte` payloads whose contents are opaque (process output) are
  modelled as `List Nat`.
* Effects (file system, subprocesses, `ffprobe`) are modelled by explicit
  environment records supplying the outcome of each external interaction:
  the functions below consume such an environment and are otherwise a direct
  transcription of the Go control flow.
* The `int64` id counter of the metric store is modelled as `Int` with the
  two's-complement wrap-around applied at every increment (`wrap64`), so
  counter overflow behaves exactly as in Go.
-/

namespace Ease

/-! ## JSON values

`encoding/json` documents are modelled by an abstract syntax tree.  Object
fields keep their textual order; Go map-based decoding steps that iterate a
map are modelled as folds over the field list (for the inputs the claims
quantify over, no two fields of interest collide, so the fold order is
irrelevant).
-/

inductive Json where
  | null : Json
  | bool (b : Bool) : Json
  | num (q : Rat) : Json
  | str (s : String) : Json
  | arr (elems : List Json) : Json
  | obj (fields : List (String × Json)) : Json
deriving Repr

/-! ### A small byte-level JSON reader

`encoding/json.Unmarshal` first needs the input text to be well-formed JSON;
zero-length input in particular is a syntax error ("unexpected end of JSON
input").  The reader below is a plain recursive-descent JSON text parser
over `List Char`, total via an explicit fuel argument (one unit of fuel per
nested value, so `length + 1` always suffices).
-/

def chQuote : Char := Char.ofNat 34
def chBackslash : Char := Char.ofNat 92
def chLCurly : Char := Char.ofNat 123
def chRCurly : Char := Char.ofNat 125

def jsonWs (c : Char) : Bool :=
  c = ' ' || c = Char.ofNat 9 || c = Char.ofNat 10 || c = Char.ofNat 13

def skipWs (cs : List Char) : List Char := cs.dropWhile jsonWs

def digitsToNat (ds : List Char) : Nat :=
  ds.foldl (fun a c => a * 10 + (c.toNat - 48)) 0

def hexVal (c : Char) : Nat :=
  if c.isDigit then c.toNat - 48
  else if 'a' ≤ c ∧ c ≤ 'f' then c.toNat - 87
  else if 'A' ≤ c ∧ c ≤ 'F' then c.toNat - 55
  else 0

def isHexDigit (c : Char) : Bool :=
  c.isDigit || ('a' ≤ c && c ≤ 'f') || ('A' ≤ c && c ≤ 'F')

/-- Parse the remainder of a JSON string literal (after the opening quote),
including the standard escape sequences. -/
def parseStringRest : Nat → List Char → List Char → Option (String × List Char)
  | 0, _, _ => none
  | _ + 1, acc, c :: rest =>
    if c = chQuote then some (String.mk acc.reverse, rest)
    else if c = chBackslash then
      match rest with
      | [] => none
      | e :: rest2 =>
        if e = 'n' then parseStringRest (rest2.length + 1) (Char.ofNat 10 :: acc) rest2
        else if e = 't' then parseStringRest (rest2.length + 1) (Char.ofNat 9 :: acc) rest2
        else if e = 'r' then parseStringRest (rest2.length + 1) (Char.ofNat 13 :: acc) rest2
        else if e = 'b' then parseStringRest (rest2.length + 1) (Char.ofNat 8 :: acc) rest2
        else if e = 'f' then parseStringRest (rest2.length + 1) (Char.ofNat 12 :: acc) rest2
        else if e = 'u' then
          match rest2 with
          | h1 :: h2 :: h3 :: h4 :: rest3 =>
            if isHexDigit h1 && isHexDigit h2 && isHexDigit h3 && isHexDigit h4 then
              let n := ((hexVal h1 * 16 + hexVal h2) * 16 + hexVal h3) * 16 + hexVal h4
              parseStringRest (rest3.length + 1) (Char.ofNat n :: acc) rest3
            else none
          | _ => none
        else if e = chQuote ∨ e = chBackslash ∨ e = '/' then
          parseStringRest (rest2.length + 1) (e :: acc) rest2
        else none
    else parseStringRest (rest.length + 1) (c :: acc) rest
  | _ + 1, _, [] => none

/-- Parse a JSON number, returning its exact rational value. -/
def parseNumber (cs : List Char) : Option (Json × List Char) :=
  let (neg, cs1) :=
    match cs with
    | '-' :: rest => (true, rest)
    | _ => (false, cs)
  let intDs := cs1.takeWhile Char.isDigit
  let cs2 := cs1.dropWhile Char.isDigit
  if intDs = [] then none
  else
    let (fracDs, cs3) :=
      match cs2 with
      | '.' :: rest =>
        (rest.takeWhile Char.isDigit, rest.dropWhile Char.isDigit)
      | _ => ([], cs2)
    if cs2 ≠ [] ∧ cs2.head? = some '.' ∧ fracDs = [] then none
    else
      let (expNeg, expDs, cs4) :=
        match cs3 with
        | 'e' :: rest | 'E' :: rest =>
          match rest with
          | '-' :: rest2 => (true, rest2.takeWhile Char.isDigit, rest2.dropWhile Char.isDigit)
          | '+' :: rest2 => (false, rest2.takeWhile Char.isDigit, rest2.dropWhile Char.isDigit)
          | _ => (false, rest.takeWhile Char.isDigit, rest.dropWhile Char.isDigit)
        | _ => (false, [], cs3)
      if cs3 ≠ [] ∧ (cs3.head? = some 'e' ∨ cs3.head? = some 'E') ∧ expDs = [] then none
      else
        let mantissa : Rat :=
          (digitsToNat intDs : Rat) + (digitsToNat fracDs : Rat) / (10 : Rat) ^ fracDs.length
        let scaled : Rat :=
          if expNeg then mantissa / (10 : Rat) ^ digitsToNat expDs
          else mantissa * (10 : Rat) ^ digitsToNat expDs
        some (Json.num (if neg then -scaled else scaled), cs4)

mutual

/-- Parse one JSON value. -/
def parseValue : Nat → List Char → Option (Json × List Char)
  | 0, _ => none
  | fuel + 1, cs =>
    match skipWs cs with
    | [] => none
    | 'n' :: 'u' :: 'l' :: 'l' :: rest => some (Json.null, rest)
    | 't' :: 'r' :: 'u' :: 'e' :: rest => some (Json.bool true, rest)
    | 'f' :: 'a' :: 'l' :: 's' :: 'e' :: rest => some (Json.bool false, rest)
    | c :: rest =>
      if c = chQuote then
        match parseStringRest (rest.length + 1) [] rest with
        | some (s, rest2) => some (Json.str s, rest2)
        | none => none
      else if c = '[' then
        match skipWs rest with
        | ']' :: rest2 => some (Json.arr [], rest2)
        | _ => parseArrayItems fuel rest []
      else if c = chLCurly then
        match skipWs rest with
        | r :: rest2 =>
          if r = chRCurly then some (Json.obj [], rest2)
          else parseObjectItems fuel rest []
        | [] => none
      else parseNumber (c :: rest)

/-- Parse the items of a non-empty JSON array (after `[`). -/
def parseArrayItems : Nat → List Char → List Json → Option (Json × List Char)
  | 0, _, _ => none
  | fuel + 1, cs, acc =>
    match parseValue fuel cs with
    | none => none
    | some (v, rest) =>
      match skipWs rest with
      | ',' :: rest2 => parseArrayItems fuel rest2 (v :: acc)
      | ']' :: rest2 => some (Json.arr (v :: acc).reverse, rest2)
      | _ => none

/-- Parse the members of a non-empty JSON object (after the opening brace). -/
def parseObjectItems : Nat → List Char → List (String × Json) →
    Option (Json × List Char)
  | 0, _, _ => none
  | fuel + 1, cs, acc =>
    match skipWs cs with
    | c :: rest =>
      if c = chQuote then
        match parseStringRest (rest.length + 1) [] rest with
        | none => none
        | some (k, rest2) =>
          match skipWs rest2 with
          | ':' :: rest3 =>
            match parseValue fuel rest3 with
            | none => none
            | some (v, rest4) =>
              match skipWs rest4 with
              | ',' :: rest5 => parseObjectItems fuel rest5 ((k, v) :: acc)
              | r :: rest5 =>
                if r = chRCurly then some (Json.obj ((k, v) :: acc).reverse, rest5)
                else none
              | [] => none
          | _ => none
      else none
    | [] => none

end

/-- Parse a whole JSON document: one value, possibly surrounded by
whitespace, with nothing after it.  Zero-length or malformed input gives
`none` (Go: `json.Unmarshal` returns an error). -/
def parseJson (input : String) : Option Json :=
  let cs := input.data
  match parseValue (cs.length + 1) cs with
  | none => none
  | some (v, rest) => if skipWs rest = [] then some v else none

/-! ## Frame metrics (`internal/vqm/frame.go`)

```go
type FrameMetric struct {
        FrameNum uint
        VMAF     float64
        PSNR     float64
        MS_SSIM  float64
}
type FrameMetrics []FrameMetric
```

`FrameMetrics.ToJSON` is `json.MarshalIndent` of the slice: a JSON array of
objects whose keys are the Go field names, in declaration order.
`FrameMetrics.FromJSON` is `json.Unmarshal` into the slice, which matches
object keys to struct fields case-insensitively, ignores unknown keys,
leaves absent fields at their zero value, and rejects fractional, negative
or out-of-range numbers for the `uint` field `FrameNum`.
-/

structure FrameMetric where
  FrameNum : Nat
  VMAF : Rat
  PSNR : Rat
  MS_SSIM : Rat
deriving Repr, DecidableEq

/-- The JSON value produced for one `FrameMetric` by Go's encoder: keys are
the field names in declaration order, numbers are the exact field values. -/
def FrameMetric.toJsonValue (m : FrameMetric) : Json :=
  Json.obj
    [("FrameNum", Json.num (m.FrameNum : Rat)),
     ("VMAF", Json.num m.VMAF),
     ("PSNR", Json.num m.PSNR),
     ("MS_SSIM", Json.num m.MS_SSIM)]

/-- `FrameMetrics.ToJSON` at the level of JSON values: a (non-nil) slice
marshals to the array of its elements' objects.  The textual layer
(`MarshalIndent`'s whitespace and Go's shortest-form float printing, which
is injective on finite floats) adds nothing at value level. -/
def FrameMetrics.toJsonValue (l : List FrameMetric) : Json :=
  Json.arr (l.map FrameMetric.toJsonValue)

/-- Decode a JSON number into a Go `float64` field. -/
def Json.asFloat : Json → Option Rat
  | Json.num q => some q
  | _ => none

/-- Decode a JSON number into a Go `uint` field: the number must be a
non-negative integer below 2^64 (the numeral is written out to keep the
definition kernel-reducible). -/
def Json.asUint : Json → Option Nat
  | Json.num q =>
    if q.den = 1 ∧ 0 ≤ q.num ∧ q.num < 18446744073709551616 then
      some q.num.toNat
    else none
  | _ => none

/-- ASCII-lowercase a string (Go's case-insensitive field matching uses
`strings.EqualFold`; for the ASCII keys involved that is lower-casing). -/
def strLower (s : String) : String := String.mk (s.data.map Char.toLower)

/-- Apply one object field to a `FrameMetric` under decode, the way
`encoding/json` does: keys match struct fields case-insensitively (all four
field names are distinct even after lower-casing), unknown keys are
ignored, ill-typed values for known fields are errors. -/
def FrameMetric.applyField (m : FrameMetric) (k : String) (v : Json) :
    Option FrameMetric :=
  let lk := strLower k
  if lk = "framenum" then (v.asUint).map (fun n => { m with FrameNum := n })
  else if lk = "vmaf" then (v.asFloat).map (fun q => { m with VMAF := q })
  else if lk = "psnr" then (v.asFloat).map (fun q => { m with PSNR := q })
  else if lk = "ms_ssim" then (v.asFloat).map (fun q => { m with MS_SSIM := q })
  else some m

/-- Fold the fields of a metric object, in textual order (later duplicate
keys overwrite, as in Go). -/
def FrameMetric.fromFields : FrameMetric → List (String × Json) → Option FrameMetric
  | m, [] => some m
  | m, (k, v) :: rest =>
    match FrameMetric.applyField m k v with
    | none => none
    | some m2 => FrameMetric.fromFields m2 rest

/-- Decode one array element into a `FrameMetric`.  Fields start at the Go
zero value; a JSON `null` element leaves the zero value (Go convention);
anything but an object or `null` is an error. -/
def FrameMetric.fromJsonValue : Json → Option FrameMetric
  | Json.null => some { FrameNum := 0, VMAF := 0, PSNR := 0, MS_SSIM := 0 }
  | Json.obj fields =>
    FrameMetric.fromFields { FrameNum := 0, VMAF := 0, PSNR := 0, MS_SSIM := 0 } fields
  | _ => none

/-- Decode every element of the array, in order. -/
def FrameMetrics.decodeElems : List Json → Option (List FrameMetric)
  | [] => some []
  | j :: rest =>
    match FrameMetric.fromJsonValue j with
    | none => none
    | some m =>
      match FrameMetrics.decodeElems rest with
      | none => none
      | some ms => some (m :: ms)

/-- `json.Unmarshal` into `FrameMetrics`: `null` leaves the (nil) slice,
an array decodes element-wise, anything else is a type error. -/
def FrameMetrics.fromJsonValue : Json → Option (List FrameMetric)
  | Json.null => some []
  | Json.arr elems => FrameMetrics.decodeElems elems
  | _ => none

/-- `FrameMetrics.FromJSON`: read all input bytes and `json.Unmarshal` them
into the slice.  `none` models the error return. -/
def FrameMetrics.FromJSON (input : String) : Option (List FrameMetric) :=
  match parseJson input with
  | none => none
  | some v => FrameMetrics.fromJsonValue v

/-! ## Alias-tolerant metric decoding (`internal/vqm` `metric.UnmarshalJSON`)

```go
type metric struct {
        VMAF    float64
        PSNR    float64
        MS_SSIM float64
}
```

`metric.UnmarshalJSON` first unmarshals the JSON object into a
`map[string]float64` and then walks the map, resolving the fixed alias
table (`psnr`/`psnr_y`, `ms_ssim`/`float_ms_ssim`) into the canonical
fields and ignoring every other key.  The map walk is modelled as a fold
over the key/value list; Go's map iteration order is arbitrary, but every
input the claims quantify over carries at most one key per canonical
field, for which every order gives the same result.
-/

structure VqMetric where
  VMAF : Rat
  PSNR : Rat
  MS_SSIM : Rat
deriving Repr, DecidableEq

/-- One step of the alias-resolving switch in `metric.UnmarshalJSON`. -/
def VqMetric.applyRaw (m : VqMetric) (k : String) (v : Rat) : VqMetric :=
  if k = "vmaf" then { m with VMAF := v }
  else if k = "psnr" ∨ k = "psnr_y" then { m with PSNR := v }
  else if k = "ms_ssim" ∨ k = "float_ms_ssim" then { m with MS_SSIM := v }
  else m

/-- The alias table: keys that `metric.UnmarshalJSON` does not ignore. -/
def vqmAliasKeys : List String :=
  ["vmaf", "psnr", "psnr_y", "ms_ssim", "float_ms_ssim"]

/-- `metric.UnmarshalJSON` on an already-materialized field map: start from
the zero value of the receiver and resolve each field through the alias
switch. -/
def metricUnmarshal (raw : List (String × Rat)) : VqMetric :=
  raw.foldl (fun m kv => m.applyRaw kv.1 kv.2) { VMAF := 0, PSNR := 0, MS_SSIM := 0 }

/-! ## VQM tool lifecycle (`FfmpegVMAF.Measure` / `GetMetrics`)

The tool struct carries the rendered command and a `measured` flag.
`Measure` consults `ffprobe` twice, compares frame counts, runs the
external tool, and only then flips `measured`.  All external interactions
are supplied by an environment record.  (The repository holds two
revisions of this file; both set `measured` only after a fully successful
measurement and guard `Measure`/result access the same way, the newer one
additionally cross-checks frame counts.  The newer revision is modelled.)
-/

/-- The stable subset of `ffprobe` metadata the tool consumes. -/
structure VideoMetadata where
  Duration : Rat
  FrameCount : Int
deriving Repr, DecidableEq

structure FfmpegVMAF where
  exePath : String
  ffmpegArgs : List String
  sourceFile : String
  compressedFile : String
  resultFile : String
  output : List Nat
  measured : Bool
deriving Repr, DecidableEq

/-- Errors surfaced by the VQM tool lifecycle. -/
inductive VqmErr where
  /-- "Measure() already executed" -/
  | alreadyExecuted : VqmErr
  /-- "source file metadata: ..." -/
  | srcMetadata : VqmErr
  /-- "compressed file metadata: ..." -/
  | compressedMetadata : VqmErr
  /-- "frame count mismatch: source v != compressed v" -/
  | frameCountMismatch (src compressed : Int) : VqmErr
  /-- "VQM calculation error: ..." -/
  | vqmCalc : VqmErr
  /-- "GetMetrics() depends on Measure() called first" -/
  | dependsOnMeasure : VqmErr
  /-- "opening file: ..." -/
  | openResult : VqmErr
  /-- "parsing JSON: ..." -/
  | parseResult : VqmErr
deriving Repr, DecidableEq

/-- Outcomes of the external interactions one `Measure()` call performs. -/
structure MeasureEnv where
  /-- `tools.FfprobeExtractMetadata(f.sourceFile)` (`none` = probe error) -/
  srcMeta : Option VideoMetadata
  /-- `tools.FfprobeExtractMetadata(f.compressedFile)` -/
  compMeta : Option VideoMetadata
  /-- bytes captured by `cmd.CombinedOutput()` -/
  toolOutput : List Nat
  /-- whether the external tool invocation returned an error -/
  toolFailed : Bool
deriving Repr, DecidableEq

/-- `FfmpegVMAF.Measure`: a direct transcription of the Go control flow.
Returns the updated receiver and the error result (`none` = success). -/
def FfmpegVMAF.Measure (f : FfmpegVMAF) (env : MeasureEnv) :
    FfmpegVMAF × Option VqmErr :=
  if f.measured then (f, some VqmErr.alreadyExecuted)
  else
    match env.srcMeta with
    | none => (f, some VqmErr.srcMetadata)
    | some srcMeta =>
      match env.compMeta with
      | none => (f, some VqmErr.compressedMetadata)
      | some compMeta =>
        if srcMeta.FrameCount ≠ compMeta.FrameCount then
          (f, some (VqmErr.frameCountMismatch srcMeta.FrameCount compMeta.FrameCount))
        else
          -- `f.output, err = cmd.CombinedOutput()`: the output is stored
          -- whether or not the tool failed.
          let f2 := { f with output := env.toolOutput }
          if env.toolFailed then (f2, some VqmErr.vqmCalc)
          else ({ f2 with measured := true }, none)

/-- Outcomes of the external interactions `GetMetrics()` performs after its
lifecycle guard: reading and decoding the result file. -/
structure GetMetricsEnv where
  /-- contents of `f.resultFile` (`none` = open error) -/
  resultData : Option String
deriving Repr, DecidableEq

/-- What `GetMetrics()` produces.  The statistical aggregation
(min/max/mean/harmonic mean/stdev/variance over the frame sequence)
involves floating-point square roots and is not needed by any claim, so a
successful call is modelled up to the decoded frame sequence the
aggregates are computed from. -/
inductive GetMetricsResult where
  | ok (frames : List FrameMetric) : GetMetricsResult
  | err (e : VqmErr) : GetMetricsResult
deriving Repr, DecidableEq

/-- Decode a JSON value into the custom-unmarshalled `metric` struct:
`null` is ignored (zero value), an object must carry only numeric values
(it is materialized into a `map[string]float64`) which are then resolved
through the alias switch, and any other shape is an error. -/
def metricFromJson : Json → Option VqMetric
  | Json.null => some { VMAF := 0, PSNR := 0, MS_SSIM := 0 }
  | Json.obj fields =>
    match fields.mapM (fun kv =>
        match kv.2 with
        | Json.num q => some (kv.1, q)
        | _ => none) with
    | none => none
    | some raw => some (metricUnmarshal raw)
  | _ => none

/-- Apply one object field of a libvmaf `frame` object, matching the keys
`frameNum` (a `uint`) and `metrics` (the aliased metric object)
case-insensitively and ignoring everything else. -/
def frameApplyField (fr : Nat × VqMetric) (k : String) (v : Json) :
    Option (Nat × VqMetric) :=
  let lk := strLower k
  if lk = "framenum" then (v.asUint).map (fun n => (n, fr.2))
  else if lk = "metrics" then (metricFromJson v).map (fun m => (fr.1, m))
  else some fr

def frameFromFields : Nat × VqMetric → List (String × Json) → Option (Nat × VqMetric)
  | fr, [] => some fr
  | fr, (k, v) :: rest =>
    match frameApplyField fr k v with
    | none => none
    | some fr2 => frameFromFields fr2 rest

/-- Decode one element of the libvmaf `frames` array. -/
def frameFromJson : Json → Option (Nat × VqMetric)
  | Json.null => some (0, { VMAF := 0, PSNR := 0, MS_SSIM := 0 })
  | Json.obj fields => frameFromFields (0, { VMAF := 0, PSNR := 0, MS_SSIM := 0 }) fields
  | _ => none

def framesDecodeElems : List Json → Option (List (Nat × VqMetric))
  | [] => some []
  | j :: rest =>
    match frameFromJson j with
    | none => none
    | some fr =>
      match framesDecodeElems rest with
      | none => none
      | some frs => some (fr :: frs)

/-- Decode the `frames` field of the libvmaf report: `null` leaves the nil
slice, an array decodes element-wise. -/
def framesFieldDecode : Json → Option (List (Nat × VqMetric))
  | Json.null => some []
  | Json.arr elems => framesDecodeElems elems
  | _ => none

/-- `FrameMetrics.FromFfmpegVMAF`: unmarshal the libvmaf JSON report and
append one `FrameMetric` per entry of its `frames` array to the receiver.
The `version` and `pooled_metrics` members do not influence the produced
frame sequence and are ignored here (no claim touches them). -/
def FrameMetrics.FromFfmpegVMAF (fm : List FrameMetric) (input : String) :
    Option (List FrameMetric) :=
  match parseJson input with
  | none => none
  | some doc =>
    match doc with
    | Json.null => some fm
    | Json.obj fields =>
      match (fields.foldl (fun acc kv =>
          if strLower kv.1 = "frames" then framesFieldDecode kv.2 else acc)
          (some [])) with
      | none => none
      | some frs =>
        some (fm ++ frs.map (fun fr =>
          { FrameNum := fr.1, VMAF := fr.2.VMAF, PSNR := fr.2.PSNR,
            MS_SSIM := fr.2.MS_SSIM }))
    | _ => none

/-- `FfmpegVMAF.GetMetrics`: the lifecycle guard comes first; afterwards
the result file is opened and decoded with `FromFfmpegVMAF`. -/
def FfmpegVMAF.GetMetrics (f : FfmpegVMAF) (env : GetMetricsEnv) :
    GetMetricsResult :=
  if ¬f.measured then GetMetricsResult.err VqmErr.dependsOnMeasure
  else
    match env.resultData with
    | none => GetMetricsResult.err VqmErr.openResult
    | some raw =>
      match FrameMetrics.FromFfmpegVMAF [] raw with
      | none => GetMetricsResult.err VqmErr.parseResult
      | some ms => GetMetricsResult.ok ms

/-! ## LimitedWriter (`internal/lw/limited_writer.go`)

```go
func (s *LimitedWriter) Write(b []byte) (int, error) {
        if uint(len(b)) > s.N {
                return 0, ErrLimitedWriterOverflow
        }
        n, err := s.W.Write(b)
        s.N -= uint(n)
        return n, err
}
```

In the plan engine the wrapped writer is a `bytes.Buffer`, which always
accepts the whole slice and never errors; the wrapped writer is modelled
accordingly as the accumulated byte list.
-/

/-- `ErrLimitedWriterOverflow` as a distinguished error value. -/
inductive LwErr where
  | overflow : LwErr
deriving Repr, DecidableEq

/-- A `LimitedWriter` over a `bytes.Buffer`: the buffer contents and the
remaining limit `N`. -/
structure LimitedWriter where
  written : List Nat
  N : Nat
deriving Repr, DecidableEq

/-- `LimitedWriter.Write`: the updated writer, the byte count written and
the error result. -/
def LimitedWriter.Write (s : LimitedWriter) (b : List Nat) :
    LimitedWriter × Nat × Option LwErr :=
  if b.length > s.N then (s, 0, some LwErr.overflow)
  else ({ written := s.written ++ b, N := s.N - b.length }, b.length, none)

/-! ## Plan engine (`internal/encoding/plan.go`)

`EncoderCmd.Run` opens the job's output file, runs the rendered command
through `sh -c` with its stderr teed (via `io.MultiWriter`) into the
5 MiB-capped memory buffer and the output file, then records resource
usage and probes the compressed artifact.  The subprocess, the file system
and `ffprobe` are supplied by an environment record; the stderr stream
arrives as the chunk sequence handed to the copying loop.

Per `os/exec` semantics: when `Stderr` is not an `*os.File`, a goroutine
copies the pipe into the writer and `cmd.Run` reports (in this order) the
wait error, the non-zero exit status, or the first copy error — so a
stderr-copy failure surfaces from `cmd.Run` even when the process itself
exited 0.
-/

structure EncoderCmd where
  Name : String
  SourceFile : String
  CompressedFile : String
  OutputFile : String
  LogFile : String
  WorkDir : String
  Cmd : String
deriving Repr, DecidableEq, Inhabited

/-- `outputBufferSize = 5 * 1024 * 1024`. -/
def outputBufferSize : Nat := 5 * 1024 * 1024

/-- Errors a single encoding run can accumulate. -/
inductive RunErr where
  /-- `os.Create(s.OutputFile)` failed -/
  | createOutput : RunErr
  /-- `cmd.Run` reported a non-zero exit status (or wait failure) -/
  | exit (code : Int) : RunErr
  /-- `cmd.Run` reported the stderr-copy error (`LimitedWriter` overflow) -/
  | stderrCopy : RunErr
  /-- `tools.FfprobeExtractMetadata(r.CompressedFile)` failed -/
  | probe : RunErr
deriving Repr, DecidableEq

/-- Copy the stderr chunk sequence through
`io.MultiWriter(lw.LimitWriter(&buf, cap), f)`: each chunk is written to
the limited memory writer first and to the file second; the copy stops at
the first write error (`io.Copy` semantics).  Returns the memory buffer,
the file contents and the copy error. -/
def runCopy : Nat → List (List Nat) → List Nat → List Nat →
    List Nat × List Nat × Option LwErr
  | _, [], buf, file => (buf, file, none)
  | n, chunk :: rest, buf, file =>
    if chunk.length > n then (buf, file, some LwErr.overflow)
    else runCopy (n - chunk.length) rest (buf ++ chunk) (file ++ chunk)

/-- Resource usage reported by the OS for one finished subprocess
(`syscall.Rusage` / wall clock), passed through into `UsageStat`. -/
structure UsageStat where
  Stime : Int
  Utime : Int
  Elapsed : Rat
  MaxRss : Int
deriving Repr, DecidableEq, Inhabited

/-- Environment for one `EncoderCmd.Run`: outcome of each external
interaction, in program order. -/
structure RunEnv where
  /-- does `os.Create(s.OutputFile)` succeed -/
  createOk : Bool
  /-- chunk sequence the stderr copy loop receives from the pipe -/
  stderrChunks : List (List Nat)
  /-- exit status of the subprocess (`0` = success) -/
  exitCode : Int
  /-- OS resource accounting at completion -/
  usage : UsageStat
  /-- `ffprobe` duration of the compressed artifact (`none` = probe error) -/
  probeDuration : Option Rat
deriving Repr, DecidableEq

/-- `RunResult` state for one run. -/
structure RunResult where
  EncoderCmd : EncoderCmd
  Errors : List RunErr
  stderr : List Nat
  Stats : UsageStat
  VideoDuration : Rat
  AvgEncodingSpeed : Rat
deriving Repr, DecidableEq

/-- The zero value of `RunResult` (what `make([]RunResult, n)` holds). -/
def RunResult.zero : RunResult :=
  { EncoderCmd := { Name := "", SourceFile := "", CompressedFile := "",
                    OutputFile := "", LogFile := "", WorkDir := "", Cmd := "" },
    Errors := [], stderr := [],
    Stats := { Stime := 0, Utime := 0, Elapsed := 0, MaxRss := 0 },
    VideoDuration := 0, AvgEncodingSpeed := 0 }

/-- `EncoderCmd.Run`: transcription of the Go control flow against the
environment.  `AvgEncodingSpeed` divides the probed duration by the
elapsed seconds (exact rational division standing in for `float64`
division; no claim depends on its value). -/
def EncoderCmd.Run (s : EncoderCmd) (env : RunEnv) : RunResult :=
  let r0 : RunResult :=
    { RunResult.zero with EncoderCmd := s }
  if ¬env.createOk then
    { r0 with Errors := [RunErr.createOutput] }
  else
    let copied := runCopy outputBufferSize env.stderrChunks [] []
    -- `cmd.Run()` error: non-zero exit first, otherwise the copy error.
    let runErr : Option RunErr :=
      if env.exitCode ≠ 0 then some (RunErr.exit env.exitCode)
      else match copied.2.2 with
        | some _ => some RunErr.stderrCopy
        | none => none
    let errs1 : List RunErr :=
      match runErr with
      | some e => [e]
      | none => []
    let r1 := { r0 with Errors := errs1, Stats := env.usage }
    let r2 :=
      match env.probeDuration with
      | none => { r1 with Errors := r1.Errors ++ [RunErr.probe] }
      | some d =>
        { r1 with VideoDuration := d,
                  AvgEncodingSpeed := d / env.usage.Elapsed }
    { r2 with stderr := copied.1 }

/-- A Plan: the expanded commands plus output-directory state. -/
structure Plan where
  Commands : List EncoderCmd
  OutDir : String
  outDirCreated : Bool
deriving Repr, DecidableEq

inductive PlanErr where
  /-- `ensureOutDir()` failed (`os.MkdirAll` error) -/
  | ensureOutDir : PlanErr
  /-- "Plan run executed with errors" -/
  | runWithErrors : PlanErr
deriving Repr, DecidableEq

/-- Environment for one `Plan.Run`: whether `os.MkdirAll` succeeds, and
the per-job run environment, by job position. -/
structure PlanEnv where
  mkdirOk : Bool
  jobEnv : Nat → RunEnv

/-- `Plan.Run`: create the output directory (tracked by the created flag),
then run every command in order into the positionally aligned result
slice; the aggregate error is non-nil iff some job accumulated errors.  On
`ensureOutDir` failure the zero-filled slice of the same length is
returned together with the error. -/
def Plan.Run (p : Plan) (env : PlanEnv) : List RunResult × Option PlanErr :=
  if ¬p.outDirCreated ∧ ¬env.mkdirOk then
    (List.replicate p.Commands.length RunResult.zero, some PlanErr.ensureOutDir)
  else
    let results :=
      (List.range p.Commands.length).map
        (fun i => (p.Commands.getD i default).Run (env.jobEnv i))
    let runError : Option PlanErr :=
      if results.any (fun r => r.Errors.length ≠ 0) then
        some PlanErr.runWithErrors
      else none
    (results, runError)

/-! ## Scheme expansion (`Scheme.Expand`, `generateOutputFileNameBase`)

String plumbing from the Go standard library is modelled on `List Char`
(so that everything reduces in the kernel): `path.Base`, `filepath.Ext`,
`strings.TrimSuffix`, `path.Join` (which `path.Clean`s its result) and
`strings.ReplaceAll`.
-/

/-- `strings.Split(s, "/")`: the slash-separated segments (including empty
ones). -/
def splitOnSlash : List Char → List String
  | cs =>
    let step := fun (c : Char) (acc : List Char × List String) =>
      if c = '/' then ([], String.mk acc.1 :: acc.2)
      else (c :: acc.1, acc.2)
    let r := cs.foldr step ([], [])
    String.mk r.1 :: r.2

/-- Join strings with `/` (`strings.Join(elems, "/")`). -/
def joinSlash : List String → String
  | [] => ""
  | [s] => s
  | s :: rest => s ++ "/" ++ joinSlash rest

/-- `path.Clean`: the lexical cleaning algorithm (drop empty and `.`
elements, resolve `..` against non-`..` elements, keep leading `..`s for
relative paths, preserve rootedness). -/
def pathClean (p : String) : String :=
  if p = "" then "."
  else
    let rooted :=
      match p.data with
      | '/' :: _ => true
      | _ => false
    let comps := (splitOnSlash p.data).foldl
      (fun acc seg =>
        if seg = "" ∨ seg = "." then acc
        else if seg = ".." then
          match acc with
          | [] => if rooted then [] else [".."]
          | lastSeg :: restAcc =>
            if lastSeg = ".." then seg :: acc else restAcc
        else seg :: acc)
      []
    let out := joinSlash comps.reverse
    if rooted then "/" ++ out
    else if out = "" then "." else out

/-- `path.Join` of two elements: empty elements are dropped, the rest are
joined with `/` and cleaned; joining nothing yields `""`. -/
def pathJoin (d f : String) : String :=
  if d = "" ∧ f = "" then ""
  else if d = "" then pathClean f
  else if f = "" then pathClean d
  else pathClean (d ++ "/" ++ f)

/-- `path.Base`: everything after the final slash of the
trailing-slash-trimmed path; `"."` for the empty path, `"/"` for
all-slashes. -/
def pathBase (p : String) : String :=
  if p = "" then "."
  else
    let rev := p.data.reverse.dropWhile (fun c => c = '/')
    if rev = [] then "/"
    else String.mk (rev.takeWhile (fun c => c ≠ '/')).reverse

/-- `filepath.Ext`: the suffix of the final element starting at its last
dot; empty when the final element has no dot. -/
def filepathExt (p : String) : String :=
  let seg := p.data.reverse.takeWhile (fun c => c ≠ '/')
  if seg.any (fun c => c = '.') then
    String.mk ('.' :: (seg.takeWhile (fun c => c ≠ '.')).reverse).reverse.reverse
  else ""

/-- `strings.TrimSuffix`. -/
def trimSuffix (s sfx : String) : String :=
  if sfx.data.isSuffixOf s.data then
    String.mk (s.data.take (s.data.length - sfx.data.length))
  else s

/-- The recursion behind `strings.ReplaceAll`: replace every
(non-overlapping, leftmost-first) occurrence of `p0 :: ptail` by `rep`.
Structural recursion over a fuel counter so that the kernel can reduce it;
every step consumes at least one character, so `cs.length` fuel always
suffices. -/
def replaceAllAux (p0 : Char) (ptail rep : List Char) : Nat → List Char → List Char
  | 0, cs => cs
  | _ + 1, [] => []
  | fuel + 1, c :: rest =>
    if (p0 :: ptail).isPrefixOf (c :: rest) then
      rep ++ replaceAllAux p0 ptail rep fuel (rest.drop ptail.length)
    else c :: replaceAllAux p0 ptail rep fuel rest

/-- `strings.ReplaceAll` (never used with an empty pattern here; Go would
interleave the replacement between characters in that case). -/
def strReplaceAll (s pat rep : String) : String :=
  match pat.data with
  | [] => s
  | p0 :: ptail => String.mk (replaceAllAux p0 ptail rep.data s.data.length s.data)

/-- The `normalize` closure of `generateOutputFileNameBase`: replace every
space with an underscore. -/
def normalize (input : String) : String := strReplaceAll input " " "_"

/-- `generateOutputFileNameBase(inputFile, outDir, postfix)`. -/
def generateOutputFileNameBase (inputFile outDir postfixArg : String) : String :=
  let baseName := pathBase inputFile
  let baseName2 := trimSuffix baseName (filepathExt baseName)
  pathJoin outDir (normalize baseName2 ++ "_" ++ normalize postfixArg)

/-- Split a character list at the first occurrence of a pattern, returning
the part after the pattern, or `none` when the pattern does not occur. -/
def splitAfterSubstr (pat : List Char) : List Char → Option (List Char)
  | [] => if pat = [] then some [] else none
  | c :: rest =>
    if pat.isPrefixOf (c :: rest) then some ((c :: rest).drop pat.length)
    else splitAfterSubstr pat rest

/-- RE2 `\w`: ASCII letters, digits and underscore. -/
def isWordChar (c : Char) : Bool := c.isAlphanum || c = '_'

/-- Parse the greedy repetition `(\.\w+)*`: the list of matched
components, each a dot followed by one or more word characters.
Structural recursion over a fuel counter (each component consumes at least
the dot, so `cs.length` fuel always suffices). -/
def parseExtCompsAux : Nat → List Char → List String
  | 0, _ => []
  | fuel + 1, '.' :: rest =>
    let w := rest.takeWhile isWordChar
    if w = [] then []
    else
      ("." ++ String.mk w) :: parseExtCompsAux fuel (rest.dropWhile isWordChar)
  | _ + 1, _ => []

def parseExtComps (cs : List Char) : List String :=
  parseExtCompsAux cs.length cs

/-- The compressed-file extension `Scheme.Expand` picks: the regexp
`%OUTPUT%(\.\w+)*` is matched at the first occurrence of the placeholder
and submatch 1 — the **last** iteration of the repeated group — is taken
(`""` when the group matches zero times or the placeholder is absent). -/
def compressedExtOf (tpl : String) : String :=
  match splitAfterSubstr "%OUTPUT%".data tpl.data with
  | none => ""
  | some rest => (parseExtComps rest).getLastD ""

structure Scheme where
  Name : String
  CommandTpl : String
deriving Repr, DecidableEq

/-- The body of `Scheme.Expand`'s loop for one source file.  `cwd` is the
result of `os.Getwd()` (identical for every iteration); on `Getwd` failure
the iteration `continue`s without producing a job. -/
def Scheme.expandOne (s : Scheme) (outDir : String) (cwd : Option String)
    (sFile : String) : Option EncoderCmd :=
  let oFileBase := generateOutputFileNameBase sFile outDir s.Name
  let compressedFileExt := compressedExtOf s.CommandTpl
  let compressedFile := oFileBase ++ compressedFileExt
  let outputFile := oFileBase ++ ".out"
  let logFile := oFileBase ++ ".log"
  let cmdStr :=
    strReplaceAll
      (strReplaceAll (strReplaceAll s.CommandTpl "%INPUT%" sFile)
        "%OUTPUT%" oFileBase)
      "%LOGFILE%" logFile
  match cwd with
  | none => none
  | some wd =>
    some { Name := s.Name, SourceFile := sFile, CompressedFile := compressedFile,
           OutputFile := outputFile, LogFile := logFile, WorkDir := wd,
           Cmd := cmdStr }

/-- `Scheme.Expand`: the loop over the source files. -/
def Scheme.Expand (s : Scheme) (sourceFiles : List String) (outDir : String)
    (cwd : Option String) : List EncoderCmd :=
  sourceFiles.filterMap (s.expandOne outDir cwd)

/-! ## Metric store (`internal/metric/store.go`)

```go
type ID int64
type Store struct {
        mu      sync.RWMutex
        records map[ID]Record
        next    ID
}
```

The `map[ID]Record` is modelled as an association list with unique keys
(assign = update-or-append, delete = filter).  Every operation holds the
single lock for its whole body, so a concurrent history is equivalent to
some sequential one and the model quantifies over sequential operation
lists.  `next++` on `int64` wraps (Go defines signed overflow as
two's-complement wrap); the model applies `wrap64` at every increment.
-/

/-- `Record` contains metrics for a single encode (`float64` fields as
exact rationals, `time.Duration`/`int64` as integers). -/
structure Record where
  Name : String := ""
  SourceFile : String := ""
  CompressedFile : String := ""
  VQMResultFile : String := ""
  Cmd : String := ""
  HStime : String := ""
  HUtime : String := ""
  HElapsed : String := ""
  Stime : Int := 0
  Utime : Int := 0
  Elapsed : Int := 0
  MaxRss : Int := 0
  VideoDuration : Rat := 0
  AvgEncodingSpeed : Rat := 0
  PSNRMin : Rat := 0
  PSNRMax : Rat := 0
  PSNRMean : Rat := 0
  PSNRHarmonicMean : Rat := 0
  PSNRStDev : Rat := 0
  PSNRVariance : Rat := 0
  MS_SSIMMin : Rat := 0
  MS_SSIMMax : Rat := 0
  MS_SSIMMean : Rat := 0
  MS_SSIMHarmonicMean : Rat := 0
  MS_SSIMStDev : Rat := 0
  MS_SSIMVariance : Rat := 0
  VMAFMin : Rat := 0
  VMAFMax : Rat := 0
  VMAFMean : Rat := 0
  VMAFHarmonicMean : Rat := 0
  VMAFStDev : Rat := 0
  VMAFVariance : Rat := 0
  BitrateMin : Rat := 0
  BitrateMax : Rat := 0
  BitrateMean : Rat := 0
deriving Inhabited

/-- `ErrRecordNotFound`-style failures. -/
inductive StoreErr where
  | recordNotFound : StoreErr
deriving Repr, DecidableEq

/-- The map `records` as an association list with unique keys. -/
abbrev StoreMap := List (Int × Record)

/-- Go map member test. -/
def StoreMap.member (m : StoreMap) (k : Int) : Bool :=
  (List.any m (fun kv => kv.1 = k))

/-- Go map assignment `m[k] = v`: overwrite in place or append. -/
def StoreMap.assign (m : StoreMap) (k : Int) (v : Record) : StoreMap :=
  if StoreMap.member m k then
    List.map (fun kv => if kv.1 = k then (k, v) else kv) m
  else List.append m [(k, v)]

/-- Go `delete(m, k)`. -/
def StoreMap.erase (m : StoreMap) (k : Int) : StoreMap :=
  List.filter (fun kv => kv.1 ≠ k) m

/-- Go map lookup. -/
def StoreMap.find (m : StoreMap) (k : Int) : Option Record :=
  (List.find? (fun kv => kv.1 = k) m).map Prod.snd

/-- Two's-complement `int64` wrap-around: the numerals are `2^63` and
`2^64`, written out to keep the definition kernel-reducible.  Go's
`int64` overflow is defined to wrap, so `next++` is `wrap64 (next + 1)`. -/
def wrap64 (x : Int) : Int :=
  (x + 9223372036854775808) % 18446744073709551616 - 9223372036854775808

structure Store where
  records : StoreMap
  next : Int

/-- `NewStore()`. -/
def NewStore : Store := { records := [], next := 0 }

/-- `Store.Insert`: store under `next`, return the allocated id, increment
`next` with `int64` wrap-around. -/
def Store.Insert (s : Store) (r : Record) : Store × Int :=
  ({ records := StoreMap.assign s.records s.next r,
     next := wrap64 (s.next + 1) }, s.next)

/-- `Store.Get`. -/
def Store.Get (s : Store) (id : Int) : Except StoreErr Record :=
  match StoreMap.find s.records id with
  | none => Except.error StoreErr.recordNotFound
  | some r => Except.ok r

/-- `Store.Exists`. -/
def Store.Exists (s : Store) (id : Int) : Bool :=
  StoreMap.member s.records id

/-- `Store.GetIDs`: the live identifiers (Go iterates the map in arbitrary
order; the model lists them in insertion order, one admissible order). -/
def Store.GetIDs (s : Store) : List Int :=
  List.map Prod.fst s.records

/-- `Store.Update`: replace an existing record or fail. -/
def Store.Update (s : Store) (id : Int) (r : Record) : Store × Option StoreErr :=
  if StoreMap.member s.records id then
    ({ s with records := StoreMap.assign s.records id r }, none)
  else (s, some StoreErr.recordNotFound)

/-- `Store.Delete`: remove an existing record or fail. -/
def Store.Delete (s : Store) (id : Int) : Store × Option StoreErr :=
  if StoreMap.member s.records id then
    ({ s with records := StoreMap.erase s.records id }, none)
  else (s, some StoreErr.recordNotFound)

/-- One Store operation of a history. -/
inductive StoreOp where
  | insert (r : Record) : StoreOp
  | delete (id : Int) : StoreOp
  | update (id : Int) (r : Record) : StoreOp
  | get (id : Int) : StoreOp
  | existsOp (id : Int) : StoreOp
deriving Inhabited

/-- Apply one operation to the store state (queries leave it unchanged). -/
def Store.applyOp (s : Store) : StoreOp → Store
  | StoreOp.insert r => (s.Insert r).1
  | StoreOp.delete id => (s.Delete id).1
  | StoreOp.update id r => (s.Update id r).1
  | StoreOp.get _ => s
  | StoreOp.existsOp _ => s

/-- Run a history from a state. -/
def Store.run (s : Store) : List StoreOp → Store
  | [] => s
  | op :: rest => Store.run (s.applyOp op) rest

/-- The ids handed out by the `Insert`s of a history, in order. -/
def Store.allocIds (s : Store) : List StoreOp → List Int
  | [] => []
  | StoreOp.insert r :: rest => (s.Insert r).2 :: Store.allocIds (s.Insert r).1 rest
  | op :: rest => Store.allocIds (s.applyOp op) rest

/-- Number of `Insert`s in a history. -/
def insertCount : List StoreOp → Nat
  | [] => 0
  | op :: rest =>
    insertCount rest +
      (match op with
       | StoreOp.insert _ => 1
       | _ => 0)

/-- Number of successful `Delete`s of a history run from `s`. -/
def Store.deleteOkCount (s : Store) : List StoreOp → Nat
  | [] => 0
  | op :: rest =>
    Store.deleteOkCount (s.applyOp op) rest +
      (match op with
       | StoreOp.delete id => if StoreMap.member s.records id then 1 else 0
       | _ => 0)

/-! ## Theorems -/

/-! ### Frame-metrics codec -/

theorem strLower_FrameNum : strLower "FrameNum" = "framenum" := by decide

theorem strLower_VMAF : strLower "VMAF" = "vmaf" := by decide

theorem strLower_PSNR : strLower "PSNR" = "psnr" := by decide

theorem strLower_MS_SSIM : strLower "MS_SSIM" = "ms_ssim" := by decide

theorem asUint_natCast (n : Nat) (h : n < 2 ^ 64) :
    (Json.num (n : Rat)).asUint = some n := by
  simp only [Json.asUint, Rat.den_natCast, Rat.num_natCast]
  rw [if_pos ⟨trivial, Int.natCast_nonneg n, by exact_mod_cast h⟩, Int.toNat_natCast]

theorem applyField_FrameNum (m : FrameMetric) (n : Nat) (h : n < 2 ^ 64) :
    FrameMetric.applyField m "FrameNum" (Json.num (n : Rat)) =
      some { m with FrameNum := n } := by
  simp [FrameMetric.applyField, strLower_FrameNum, asUint_natCast n h]

theorem applyField_VMAF (m : FrameMetric) (q : Rat) :
    FrameMetric.applyField m "VMAF" (Json.num q) = some { m with VMAF := q } := by
  simp [FrameMetric.applyField, strLower_VMAF, Json.asFloat]

theorem applyField_PSNR (m : FrameMetric) (q : Rat) :
    FrameMetric.applyField m "PSNR" (Json.num q) = some { m with PSNR := q } := by
  simp [FrameMetric.applyField, strLower_PSNR, Json.asFloat]

theorem applyField_MS_SSIM (m : FrameMetric) (q : Rat) :
    FrameMetric.applyField m "MS_SSIM" (Json.num q) =
      some { m with MS_SSIM := q } := by
  simp [FrameMetric.applyField, strLower_MS_SSIM, Json.asFloat]

theorem fromFields_cons_some (m m2 : FrameMetric) (k : String) (v : Json)
    (rest : List (String × Json))
    (hap : FrameMetric.applyField m k v = some m2) :
    FrameMetric.fromFields m ((k, v) :: rest) = FrameMetric.fromFields m2 rest := by
  simp only [FrameMetric.fromFields, hap]

/-- One `FrameMetric` whose frame index fits in a Go `uint` survives the
encode/decode pair unchanged. -/
theorem FrameMetric.roundtrip (m : FrameMetric) (h : m.FrameNum < 2 ^ 64) :
    FrameMetric.fromJsonValue m.toJsonValue = some m := by
  show FrameMetric.fromFields ⟨0, 0, 0, 0⟩ _ = some m
  rw [fromFields_cons_some _ _ _ _ _ (applyField_FrameNum _ _ h)]
  rw [fromFields_cons_some _ _ _ _ _ (applyField_VMAF _ _)]
  rw [fromFields_cons_some _ _ _ _ _ (applyField_PSNR _ _)]
  rw [fromFields_cons_some _ _ _ _ _ (applyField_MS_SSIM _ _)]
  rfl

theorem decodeElems_cons_some (j : Json) (m : FrameMetric)
    (rest : List Json) (ms : List FrameMetric)
    (hj : FrameMetric.fromJsonValue j = some m)
    (hr : FrameMetrics.decodeElems rest = some ms) :
    FrameMetrics.decodeElems (j :: rest) = some (m :: ms) := by
  simp only [FrameMetrics.decodeElems, hj, hr]

theorem decodeElems_map (l : List FrameMetric)
    (h : ∀ m ∈ l, m.FrameNum < 2 ^ 64) :
    FrameMetrics.decodeElems (l.map FrameMetric.toJsonValue) = some l := by
  induction l with
  | nil => rfl
  | cons m rest ih =>
    have hm := h m (List.mem_cons_self m rest)
    have hr := fun x hx => h x (List.mem_cons_of_mem m hx)
    exact decodeElems_cons_some _ _ _ _ (FrameMetric.roundtrip m hm) (ih hr)

/-- C1: encoding a non-empty sequence of frame metrics (frame index plus
three finite float scores) with `FrameMetrics.ToJSON` and decoding the
output with `FrameMetrics.FromJSON` yields the identical sequence, element
for element and in order.  The frame-index bound restates the Go `uint`
range; finiteness of the scores is built into the exact-rational model of
`float64` (Go prints a finite float so that it reparses to the same
value). -/
theorem claimC1_frameMetrics_roundtrip (l : List FrameMetric) (hne : l ≠ [])
    (hfit : ∀ m ∈ l, m.FrameNum < 2 ^ 64) :
    FrameMetrics.fromJsonValue (FrameMetrics.toJsonValue l) = some l := by
  simp only [FrameMetrics.toJsonValue, FrameMetrics.fromJsonValue,
    decodeElems_map l hfit]

/-- C1 witness: the round trip evaluated on a concrete two-frame
sequence. -/
theorem claimC1_frameMetrics_roundtrip_witness :
    ([⟨0, 1, 2, 3⟩, ⟨1, 5, 6, 7⟩] : List FrameMetric) ≠ [] ∧
    FrameMetrics.fromJsonValue
        (FrameMetrics.toJsonValue [⟨0, 1, 2, 3⟩, ⟨1, 5, 6, 7⟩]) =
      some [⟨0, 1, 2, 3⟩, ⟨1, 5, 6, 7⟩] :=
  ⟨by decide, claimC1_frameMetrics_roundtrip _ (by decide) (by decide)⟩

/-- C9: `FrameMetrics.FromJSON` on zero-length input always errors, while
on the structurally valid empty array `[]` it succeeds with the empty
sequence. -/
theorem claimC9_fromJSON_empty :
    FrameMetrics.FromJSON "" = none ∧ FrameMetrics.FromJSON "[]" = some [] := by
  decide

/-! ### Alias-tolerant metric decoding -/

theorem applyRaw_psnr_alias (m : VqMetric) (v : Rat) :
    VqMetric.applyRaw m "psnr_y" v = VqMetric.applyRaw m "psnr" v := by
  simp [VqMetric.applyRaw]

theorem applyRaw_msssim_alias (m : VqMetric) (v : Rat) :
    VqMetric.applyRaw m "float_ms_ssim" v = VqMetric.applyRaw m "ms_ssim" v := by
  simp [VqMetric.applyRaw]

theorem applyRaw_unknown (m : VqMetric) (k : String) (v : Rat)
    (h : k ∉ vqmAliasKeys) : VqMetric.applyRaw m k v = m := by
  simp only [vqmAliasKeys, List.mem_cons, List.mem_singleton, not_or] at h
  obtain ⟨h1, h2, h3, h4, h5⟩ := h
  simp [VqMetric.applyRaw, h1, h2, h3, h4, h5]

theorem applyRaw_VMAF_preserve (m : VqMetric) (k : String) (v : Rat)
    (h : k ≠ "vmaf") : (VqMetric.applyRaw m k v).VMAF = m.VMAF := by
  unfold VqMetric.applyRaw
  split_ifs with h1 h2 h3
  · exact absurd h1 h
  · rfl
  · rfl
  · rfl

theorem applyRaw_PSNR_preserve (m : VqMetric) (k : String) (v : Rat)
    (h1 : k ≠ "psnr") (h2 : k ≠ "psnr_y") :
    (VqMetric.applyRaw m k v).PSNR = m.PSNR := by
  unfold VqMetric.applyRaw
  split_ifs with g1 g2 g3
  · rfl
  · rcases g2 with g | g
    · exact absurd g h1
    · exact absurd g h2
  · rfl
  · rfl

theorem applyRaw_MS_SSIM_preserve (m : VqMetric) (k : String) (v : Rat)
    (h1 : k ≠ "ms_ssim") (h2 : k ≠ "float_ms_ssim") :
    (VqMetric.applyRaw m k v).MS_SSIM = m.MS_SSIM := by
  unfold VqMetric.applyRaw
  split_ifs with g1 g2 g3
  · rfl
  · rfl
  · rcases g3 with g | g
    · exact absurd g h1
    · exact absurd g h2
  · rfl

theorem foldRaw_VMAF_preserve (b : List (String × Rat)) :
    ∀ m : VqMetric, (∀ kv ∈ b, kv.1 ≠ "vmaf") →
      (b.foldl (fun m kv => m.applyRaw kv.1 kv.2) m).VMAF = m.VMAF := by
  induction b with
  | nil => intro m _; rfl
  | cons kv rest ih =>
    intro m h
    have hk := h kv (List.mem_cons_self kv rest)
    have hr := fun x hx => h x (List.mem_cons_of_mem kv hx)
    rw [List.foldl_cons, ih _ hr, applyRaw_VMAF_preserve m kv.1 kv.2 hk]

theorem foldRaw_PSNR_preserve (b : List (String × Rat)) :
    ∀ m : VqMetric, (∀ kv ∈ b, kv.1 ≠ "psnr" ∧ kv.1 ≠ "psnr_y") →
      (b.foldl (fun m kv => m.applyRaw kv.1 kv.2) m).PSNR = m.PSNR := by
  induction b with
  | nil => intro m _; rfl
  | cons kv rest ih =>
    intro m h
    have hk := h kv (List.mem_cons_self kv rest)
    have hr := fun x hx => h x (List.mem_cons_of_mem kv hx)
    rw [List.foldl_cons, ih _ hr, applyRaw_PSNR_preserve m kv.1 kv.2 hk.1 hk.2]

theorem foldRaw_MS_SSIM_preserve (b : List (String × Rat)) :
    ∀ m : VqMetric, (∀ kv ∈ b, kv.1 ≠ "ms_ssim" ∧ kv.1 ≠ "float_ms_ssim") →
      (b.foldl (fun m kv => m.applyRaw kv.1 kv.2) m).MS_SSIM = m.MS_SSIM := by
  induction b with
  | nil => intro m _; rfl
  | cons kv rest ih =>
    intro m h
    have hk := h kv (List.mem_cons_self kv rest)
    have hr := fun x hx => h x (List.mem_cons_of_mem kv hx)
    rw [List.foldl_cons, ih _ hr, applyRaw_MS_SSIM_preserve m kv.1 kv.2 hk.1 hk.2]

/-- C6: decoding a per-frame metric object resolves the fixed alias table
into canonical fields: a field map using `psnr_y` (resp. `float_ms_ssim`)
decodes identically to one using `psnr` (resp. `ms_ssim`) in the same
position; keys outside the alias table are ignored entirely; and a
canonical field none of whose accepted keys occurs decodes to zero. -/
theorem claimC6_alias_decoding :
    (∀ (a b : List (String × Rat)) (v : Rat),
      metricUnmarshal (a ++ ("psnr_y", v) :: b) =
        metricUnmarshal (a ++ ("psnr", v) :: b)) ∧
    (∀ (a b : List (String × Rat)) (v : Rat),
      metricUnmarshal (a ++ ("float_ms_ssim", v) :: b) =
        metricUnmarshal (a ++ ("ms_ssim", v) :: b)) ∧
    (∀ (a b : List (String × Rat)) (k : String) (v : Rat), k ∉ vqmAliasKeys →
      metricUnmarshal (a ++ (k, v) :: b) = metricUnmarshal (a ++ b)) ∧
    (∀ raw : List (String × Rat), (∀ kv ∈ raw, kv.1 ≠ "vmaf") →
      (metricUnmarshal raw).VMAF = 0) ∧
    (∀ raw : List (String × Rat),
      (∀ kv ∈ raw, kv.1 ≠ "psnr" ∧ kv.1 ≠ "psnr_y") →
      (metricUnmarshal raw).PSNR = 0) ∧
    (∀ raw : List (String × Rat),
      (∀ kv ∈ raw, kv.1 ≠ "ms_ssim" ∧ kv.1 ≠ "float_ms_ssim") →
      (metricUnmarshal raw).MS_SSIM = 0) := by
  refine ⟨?_, ?_, ?_, ?_, ?_, ?_⟩
  · intro a b v
    simp only [metricUnmarshal, List.foldl_append, List.foldl_cons,
      applyRaw_psnr_alias]
  · intro a b v
    simp only [metricUnmarshal, List.foldl_append, List.foldl_cons,
      applyRaw_msssim_alias]
  · intro a b k v h
    simp only [metricUnmarshal, List.foldl_append, List.foldl_cons,
      applyRaw_unknown _ _ _ h]
  · intro raw h
    exact foldRaw_VMAF_preserve raw _ h
  · intro raw h
    exact foldRaw_PSNR_preserve raw _ h
  · intro raw h
    exact foldRaw_MS_SSIM_preserve raw _ h

/-- C6 witness: the alias equivalence, the unknown-key rule and the
absent-key default evaluated at concrete field maps. -/
theorem claimC6_alias_decoding_witness :
    metricUnmarshal [("psnr_y", 5)] = metricUnmarshal [("psnr", 5)] ∧
    metricUnmarshal [("float_ms_ssim", 4)] = metricUnmarshal [("ms_ssim", 4)] ∧
    metricUnmarshal [("integer_adm2", 3)] = metricUnmarshal [] ∧
    (metricUnmarshal [("vmaf", 2)]).PSNR = 0 :=
  ⟨claimC6_alias_decoding.1 [] [] 5,
   claimC6_alias_decoding.2.1 [] [] 4,
   claimC6_alias_decoding.2.2.1 [] [] "integer_adm2" 3 (by decide),
   claimC6_alias_decoding.2.2.2.2.1 [("vmaf", 2)] (by decide)⟩

/-! ### VQM tool lifecycle -/

theorem measured_measure_already (f : FfmpegVMAF) (h : f.measured = true)
    (env : MeasureEnv) : (f.Measure env).2 = some VqmErr.alreadyExecuted := by
  simp [FfmpegVMAF.Measure, h]

theorem measure_success_measured (f : FfmpegVMAF) (env : MeasureEnv)
    (h : (f.Measure env).2 = none) : (f.Measure env).1.measured = true := by
  unfold FfmpegVMAF.Measure at h ⊢
  by_cases hm : f.measured
  · simp [hm] at h
  · cases hs : env.srcMeta with
    | none => simp [hm, hs] at h
    | some sm =>
      cases hc : env.compMeta with
      | none => simp [hm, hs, hc] at h
      | some cm =>
        by_cases hfc : sm.FrameCount ≠ cm.FrameCount
        · simp [hm, hs, hc, hfc] at h
        · by_cases htf : env.toolFailed
          · simp [hm, hs, hc, hfc, htf] at h
          · simp [hm, hs, hc, hfc, htf]

theorem measure_failure_state (f : FfmpegVMAF) (env : MeasureEnv) (e : VqmErr)
    (h0 : f.measured = false) (he : (f.Measure env).2 = some e) :
    (f.Measure env).1.measured = false ∧ e ≠ VqmErr.alreadyExecuted := by
  unfold FfmpegVMAF.Measure at he ⊢
  cases hs : env.srcMeta with
  | none =>
    simp [h0, hs] at he ⊢
    simp [← he]
  | some sm =>
    cases hc : env.compMeta with
    | none =>
      simp [h0, hs, hc] at he ⊢
      simp [← he]
    | some cm =>
      by_cases hfc : sm.FrameCount ≠ cm.FrameCount
      · simp [h0, hs, hc, hfc] at he ⊢
        simp [← he]
      · by_cases htf : env.toolFailed
        · simp [h0, hs, hc, hfc, htf] at he ⊢
          simp [← he]
        · simp [h0, hs, hc, hfc, htf] at he

theorem measure_unmeasured_not_already (f : FfmpegVMAF) (env : MeasureEnv)
    (h0 : f.measured = false) :
    (f.Measure env).2 ≠ some VqmErr.alreadyExecuted := by
  intro hcontra
  exact (measure_failure_state f env _ h0 hcontra).2 rfl

theorem getMetrics_unmeasured (f : FfmpegVMAF) (h : f.measured = false)
    (genv : GetMetricsEnv) :
    f.GetMetrics genv = GetMetricsResult.err VqmErr.dependsOnMeasure := by
  simp [FfmpegVMAF.GetMetrics, h]

/-- C5 is corrected by this counterexample: on an instance whose first
`Measure()` fails (source metadata probe error), the second invocation is
not rejected with the "already executed" error — it reports the probe
error again. -/
theorem claimC5_counterexample :
    (((⟨"ffmpeg", [], "src.mp4", "comp.mp4", "res.json", [], false⟩ :
        FfmpegVMAF).Measure ⟨none, none, [], false⟩).2 =
      some VqmErr.srcMetadata) ∧
    ((((⟨"ffmpeg", [], "src.mp4", "comp.mp4", "res.json", [], false⟩ :
        FfmpegVMAF).Measure ⟨none, none, [], false⟩).1.Measure
          ⟨none, none, [], false⟩).2 = some VqmErr.srcMetadata) ∧
    VqmErr.srcMetadata ≠ VqmErr.alreadyExecuted := by
  decide

/-- C5 (amended): after a **successful** `Measure()`, any further
`Measure()` invocation on the same instance fails with the "already
executed" error.  (A failed first invocation leaves the instance
un-measured and retryable — see the counterexample and C10.) -/
theorem claimC5_measure_once (f : FfmpegVMAF) (env : MeasureEnv)
    (hok : (f.Measure env).2 = none) (env2 : MeasureEnv) :
    ((f.Measure env).1.Measure env2).2 = some VqmErr.alreadyExecuted :=
  measured_measure_already _ (measure_success_measured f env hok) env2

/-- C5 witness: a successful measurement followed by a rejected second
invocation, on concrete data. -/
theorem claimC5_measure_once_witness :
    ((((⟨"ffmpeg", [], "src.mp4", "comp.mp4", "res.json", [], false⟩ :
        FfmpegVMAF).Measure
          ⟨some ⟨10, 240⟩, some ⟨10, 240⟩, [], false⟩).2 = none) ∧
    ((((⟨"ffmpeg", [], "src.mp4", "comp.mp4", "res.json", [], false⟩ :
        FfmpegVMAF).Measure
          ⟨some ⟨10, 240⟩, some ⟨10, 240⟩, [], false⟩).1.Measure
            ⟨some ⟨10, 240⟩, some ⟨10, 240⟩, [], false⟩).2 =
      some VqmErr.alreadyExecuted)) :=
  ⟨by decide, claimC5_measure_once _ _ (by decide) _⟩

/-- C10: whenever `Measure()` on an un-measured instance returns an error,
the instance stays un-measured: the flag remains false, the result
accessor still fails with the "depends on Measure() called first" error,
the returned error is not the "already executed" one, and a subsequent
`Measure()` is never rejected as already executed — the Created→Measured
transition is taken only by a successful measurement. -/
theorem claimC10_failed_measure_keeps_state (f : FfmpegVMAF)
    (env : MeasureEnv) (e : VqmErr) (h0 : f.measured = false)
    (he : (f.Measure env).2 = some e) :
    (f.Measure env).1.measured = false ∧
    e ≠ VqmErr.alreadyExecuted ∧
    (∀ genv : GetMetricsEnv, (f.Measure env).1.GetMetrics genv =
      GetMetricsResult.err VqmErr.dependsOnMeasure) ∧
    (∀ env2 : MeasureEnv,
      ((f.Measure env).1.Measure env2).2 ≠ some VqmErr.alreadyExecuted) := by
  obtain ⟨hflag, hne⟩ := measure_failure_state f env e h0 he
  exact ⟨hflag, hne,
    fun genv => getMetrics_unmeasured _ hflag genv,
    fun env2 => measure_unmeasured_not_already _ env2 hflag⟩

/-- C10 witness: a failed measurement (frame-count mismatch) evaluated on
concrete data. -/
theorem claimC10_failed_measure_keeps_state_witness :
    ((((⟨"ffmpeg", [], "src.mp4", "comp.mp4", "res.json", [], false⟩ :
        FfmpegVMAF).Measure
          ⟨some ⟨10, 240⟩, some ⟨10, 239⟩, [], false⟩).1.measured = false) ∧
    ((⟨"ffmpeg", [], "src.mp4", "comp.mp4", "res.json", [], false⟩ :
        FfmpegVMAF).Measure
          ⟨some ⟨10, 240⟩, some ⟨10, 239⟩, [], false⟩).1.GetMetrics ⟨none⟩ =
      GetMetricsResult.err VqmErr.dependsOnMeasure) :=
  have h := claimC10_failed_measure_keeps_state
    ⟨"ffmpeg", [], "src.mp4", "comp.mp4", "res.json", [], false⟩
    ⟨some ⟨10, 240⟩, some ⟨10, 239⟩, [], false⟩
    (VqmErr.frameCountMismatch 240 239) rfl (by decide)
  ⟨h.1, h.2.2.1 ⟨none⟩⟩

/-! ### LimitedWriter and job outcome -/

theorem limitedWriter_overflow_write (s : LimitedWriter) (b : List Nat)
    (h : b.length > s.N) : s.Write b = (s, 0, some LwErr.overflow) := by
  simp [LimitedWriter.Write, h]

theorem runCopy_big_chunk_overflows :
    (runCopy outputBufferSize [List.replicate (outputBufferSize + 1) 0] [] []).2.2 =
      some LwErr.overflow := by
  unfold runCopy
  rw [if_pos (by simp [List.length_replicate])]

theorem run_overflow_recorded (c : EncoderCmd) (env : RunEnv)
    (hc : env.createOk = true) (hx : env.exitCode = 0)
    (ho : (runCopy outputBufferSize env.stderrChunks [] []).2.2 =
      some LwErr.overflow) :
    RunErr.stderrCopy ∈ (c.Run env).Errors := by
  unfold EncoderCmd.Run
  cases hp : env.probeDuration with
  | none => simp [hc, hx, ho, hp]
  | some d => simp [hc, hx, ho, hp]

theorem run_exit0_overflow_errors (c : EncoderCmd) (env : RunEnv) (d : Rat)
    (hc : env.createOk = true) (hx : env.exitCode = 0)
    (ho : (runCopy outputBufferSize env.stderrChunks [] []).2.2 =
      some LwErr.overflow)
    (hp : env.probeDuration = some d) :
    (c.Run env).Errors = [RunErr.stderrCopy] := by
  unfold EncoderCmd.Run
  simp [hc, hx, ho, hp]

theorem planRun_err_of_job_err (p : Plan) (env : PlanEnv)
    (hdir : p.outDirCreated = true) (i : Nat) (hi : i < p.Commands.length)
    (hjob : ((p.Commands.getD i default).Run (env.jobEnv i)).Errors ≠ []) :
    (p.Run env).2 = some PlanErr.runWithErrors := by
  unfold Plan.Run
  rw [if_neg (by simp [hdir])]
  simp only
  rw [if_pos]
  rw [List.any_eq_true]
  refine ⟨(p.Commands.getD i default).Run (env.jobEnv i), ?_, ?_⟩
  · exact List.mem_map.mpr ⟨i, List.mem_range.mpr hi, rfl⟩
  · simpa [List.length_eq_zero] using hjob

/-- C4 is corrected by this counterexample: a job whose subprocess exits
with status 0 but floods stderr past the 5 MiB cap is recorded as failed —
the overflow surfaces through the `cmd.Run` copy error into the job's
error list and fails the whole plan, so the pass/fail outcome is **not**
determined solely by the exit status. -/
theorem claimC4_counterexample :
    (RunEnv.mk true [List.replicate (outputBufferSize + 1) 0] 0
        ⟨0, 0, 1, 0⟩ (some 1)).exitCode = 0 ∧
    ((EncoderCmd.mk "enc" "a.mp4" "out/a.mp4" "out/a.out" "out/a.log" "/wd"
        "cmd").Run
      (RunEnv.mk true [List.replicate (outputBufferSize + 1) 0] 0
        ⟨0, 0, 1, 0⟩ (some 1))).Errors = [RunErr.stderrCopy] ∧
    (Plan.Run ⟨[EncoderCmd.mk "enc" "a.mp4" "out/a.mp4" "out/a.out" "out/a.log"
        "/wd" "cmd"], "out", true⟩
      ⟨true, fun _ => RunEnv.mk true [List.replicate (outputBufferSize + 1) 0] 0
        ⟨0, 0, 1, 0⟩ (some 1)⟩).2 = some PlanErr.runWithErrors := by
  have herr := run_exit0_overflow_errors
    (EncoderCmd.mk "enc" "a.mp4" "out/a.mp4" "out/a.out" "out/a.log" "/wd" "cmd")
    (RunEnv.mk true [List.replicate (outputBufferSize + 1) 0] 0
      ⟨0, 0, 1, 0⟩ (some 1))
    1 rfl rfl
    (by rw [show (RunEnv.mk true [List.replicate (outputBufferSize + 1) 0] 0
          (UsageStat.mk 0 0 1 0) (some 1)).stderrChunks =
        [List.replicate (outputBufferSize + 1) 0] from rfl]
        exact runCopy_big_chunk_overflows)
    rfl
  refine ⟨rfl, herr, ?_⟩
  refine planRun_err_of_job_err _ _ rfl 0 (by simp) ?_
  rw [show (([EncoderCmd.mk "enc" "a.mp4" "out/a.mp4" "out/a.out" "out/a.log"
      "/wd" "cmd"] : List EncoderCmd).getD 0 default) =
    EncoderCmd.mk "enc" "a.mp4" "out/a.mp4" "out/a.out" "out/a.log" "/wd" "cmd"
    from rfl]
  rw [herr]
  exact List.cons_ne_nil _ _

/-- C4 (amended): a write to the size-capped buffer whose length exceeds
the remaining capacity fails that specific write with the LimitedWriter
overflow error, writing zero bytes and leaving the buffer untouched; but
the overflow **does** affect the job outcome: when the subprocess itself
exits 0, the failed stderr copy is reported by `cmd.Run` and appended to
the job's error list (so the outcome is the exit status *or* a capture
overflow, not the exit status alone). -/
theorem claimC4_overflow_behavior :
    (∀ (s : LimitedWriter) (b : List Nat), b.length > s.N →
      s.Write b = (s, 0, some LwErr.overflow)) ∧
    (∀ (c : EncoderCmd) (env : RunEnv), env.createOk = true →
      env.exitCode = 0 →
      (runCopy outputBufferSize env.stderrChunks [] []).2.2 =
        some LwErr.overflow →
      RunErr.stderrCopy ∈ (c.Run env).Errors) :=
  ⟨limitedWriter_overflow_write, run_overflow_recorded⟩

/-- C4 witness: the overflow write and the recorded job error evaluated on
concrete data. -/
theorem claimC4_overflow_behavior_witness :
    (LimitedWriter.mk [] 1).Write [0, 0] =
      (LimitedWriter.mk [] 1, 0, some LwErr.overflow) ∧
    RunErr.stderrCopy ∈
      ((EncoderCmd.mk "enc" "a.mp4" "out/a.mp4" "out/a.out" "out/a.log" "/wd"
        "cmd").Run
        (RunEnv.mk true [List.replicate (outputBufferSize + 1) 0] 0
          ⟨0, 0, 1, 0⟩ (some 1))).Errors :=
  ⟨claimC4_overflow_behavior.1 (LimitedWriter.mk [] 1) [0, 0] (by decide),
   claimC4_overflow_behavior.2 _ _ rfl rfl
    (by rw [show (RunEnv.mk true [List.replicate (outputBufferSize + 1) 0] 0
          (UsageStat.mk 0 0 1 0) (some 1)).stderrChunks =
        [List.replicate (outputBufferSize + 1) 0] from rfl]
        exact runCopy_big_chunk_overflows)⟩

/-! ### Plan.Run -/

/-- C3 is corrected by this counterexample: when creating the output
directory fails, `Plan.Run` returns a non-nil error although no job
accumulated any error (the jobs never ran), and the returned entries are
zero values rather than the results of executing the jobs (the job's name
would be "enc", the returned entry's is ""). -/
theorem claimC3_counterexample :
    (Plan.Run
        ⟨[EncoderCmd.mk "enc" "a.mp4" "out/a.mp4" "out/a.out" "out/a.log" "/wd"
          "cmd"], "out", false⟩
        ⟨false, fun _ => RunEnv.mk true [] 0 ⟨0, 0, 1, 0⟩ (some 1)⟩).2 =
      some PlanErr.ensureOutDir ∧
    ((Plan.Run
        ⟨[EncoderCmd.mk "enc" "a.mp4" "out/a.mp4" "out/a.out" "out/a.log" "/wd"
          "cmd"], "out", false⟩
        ⟨false, fun _ => RunEnv.mk true [] 0 ⟨0, 0, 1, 0⟩ (some 1)⟩).1.map
      (fun r => r.Errors)) = [[]] ∧
    ((Plan.Run
        ⟨[EncoderCmd.mk "enc" "a.mp4" "out/a.mp4" "out/a.out" "out/a.log" "/wd"
          "cmd"], "out", false⟩
        ⟨false, fun _ => RunEnv.mk true [] 0 ⟨0, 0, 1, 0⟩ (some 1)⟩).1.map
      (fun r => r.EncoderCmd.Name)) = [""] ∧
    ((EncoderCmd.mk "enc" "a.mp4" "out/a.mp4" "out/a.out" "out/a.log" "/wd"
        "cmd").Run (RunEnv.mk true [] 0 ⟨0, 0, 1, 0⟩ (some 1))).EncoderCmd.Name =
      "enc" := by
  refine ⟨rfl, rfl, rfl, rfl⟩

/-- C3 (amended): provided the output directory is (or can be) created,
`Plan.Run` returns one result per generated job, its `i`-th entry is the
result of executing the `i`-th job regardless of individual job success or
failure, and the returned error is nil exactly when no job accumulated any
error.  When creating the output directory fails, a zero-valued list of
the same length is returned together with a non-nil error. -/
theorem claimC3_plan_run (p : Plan) (env : PlanEnv)
    (hdir : p.outDirCreated = true ∨ env.mkdirOk = true) :
    (p.Run env).1.length = p.Commands.length ∧
    (∀ i : Nat, (p.Run env).1[i]? =
      (p.Commands[i]?).map (fun c => c.Run (env.jobEnv i))) ∧
    ((p.Run env).2 = none ↔ ∀ r ∈ (p.Run env).1, r.Errors = []) := by
  have hcond : ¬(¬p.outDirCreated ∧ ¬env.mkdirOk) := by
    rcases hdir with h | h <;> simp [h]
  unfold Plan.Run
  rw [if_neg hcond]
  dsimp only
  refine ⟨by simp, ?_, ?_⟩
  · intro i
    rw [List.getElem?_map]
    by_cases hi : i < p.Commands.length
    · rw [List.getElem?_range (by simpa using hi), List.getElem?_eq_getElem hi]
      simp [List.getD_eq_getElem?_getD, List.getElem?_eq_getElem hi]
    · rw [List.getElem?_eq_none (by simpa using Nat.le_of_not_lt hi),
        List.getElem?_eq_none (Nat.le_of_not_lt hi)]
      rfl
  · constructor
    · intro hnone r hr
      by_contra hne2
      have : (List.map
          (fun i => (p.Commands.getD i default).Run (env.jobEnv i))
          (List.range p.Commands.length)).any
            (fun r => decide (r.Errors.length ≠ 0)) = true := by
        rw [List.any_eq_true]
        exact ⟨r, hr, by simpa [List.length_eq_zero] using hne2⟩
      simp only [this, if_true] at hnone
      exact Option.noConfusion hnone
    · intro hall
      rw [if_neg]
      simp only [List.any_eq_true, not_exists, not_and]
      intro r hr
      simp [List.length_eq_zero, hall r hr]

/-- C3 witness: the amended statement evaluated on a one-job plan whose
directory creation succeeds. -/
theorem claimC3_plan_run_witness :
    ((Plan.Run
        ⟨[EncoderCmd.mk "enc" "a.mp4" "out/a.mp4" "out/a.out" "out/a.log" "/wd"
          "cmd"], "out", false⟩
        ⟨true, fun _ => RunEnv.mk true [] 0 ⟨0, 0, 1, 0⟩ (some 1)⟩).1.length =
      1) ∧
    ((Plan.Run
        ⟨[EncoderCmd.mk "enc" "a.mp4" "out/a.mp4" "out/a.out" "out/a.log" "/wd"
          "cmd"], "out", false⟩
        ⟨true, fun _ => RunEnv.mk true [] 0 ⟨0, 0, 1, 0⟩ (some 1)⟩).2 = none ↔
      ∀ r ∈ (Plan.Run
        ⟨[EncoderCmd.mk "enc" "a.mp4" "out/a.mp4" "out/a.out" "out/a.log" "/wd"
          "cmd"], "out", false⟩
        ⟨true, fun _ => RunEnv.mk true [] 0 ⟨0, 0, 1, 0⟩ (some 1)⟩).1,
        r.Errors = []) :=
  have h := claimC3_plan_run
    ⟨[EncoderCmd.mk "enc" "a.mp4" "out/a.mp4" "out/a.out" "out/a.log" "/wd"
      "cmd"], "out", false⟩
    ⟨true, fun _ => RunEnv.mk true [] 0 ⟨0, 0, 1, 0⟩ (some 1)⟩
    (Or.inr rfl)
  ⟨h.1, h.2.2⟩

/-! ### Scheme expansion -/

theorem expandOne_some (s : Scheme) (outDir wd f : String) :
    s.expandOne outDir (some wd) f = some
      { Name := s.Name, SourceFile := f,
        CompressedFile :=
          generateOutputFileNameBase f outDir s.Name ++ compressedExtOf s.CommandTpl,
        OutputFile := generateOutputFileNameBase f outDir s.Name ++ ".out",
        LogFile := generateOutputFileNameBase f outDir s.Name ++ ".log",
        WorkDir := wd,
        Cmd := strReplaceAll
          (strReplaceAll (strReplaceAll s.CommandTpl "%INPUT%" f) "%OUTPUT%"
            (generateOutputFileNameBase f outDir s.Name))
          "%LOGFILE%" (generateOutputFileNameBase f outDir s.Name ++ ".log") } :=
  rfl

/-- `Scheme.Expand` under a successful `Getwd` is exactly a map over the
source files. -/
theorem expand_some_eq (s : Scheme) (outDir wd : String) (files : List String) :
    s.Expand files outDir (some wd) = files.map (fun f =>
      { Name := s.Name, SourceFile := f,
        CompressedFile :=
          generateOutputFileNameBase f outDir s.Name ++ compressedExtOf s.CommandTpl,
        OutputFile := generateOutputFileNameBase f outDir s.Name ++ ".out",
        LogFile := generateOutputFileNameBase f outDir s.Name ++ ".log",
        WorkDir := wd,
        Cmd := strReplaceAll
          (strReplaceAll (strReplaceAll s.CommandTpl "%INPUT%" f) "%OUTPUT%"
            (generateOutputFileNameBase f outDir s.Name))
          "%LOGFILE%" (generateOutputFileNameBase f outDir s.Name ++ ".log") }) := by
  induction files with
  | nil => rfl
  | cons f rest ih =>
    simp only [Scheme.Expand, List.map_cons] at ih ⊢
    rw [List.filterMap_cons, expandOne_some, ih]

/-- C7 is corrected by this counterexample: when `os.Getwd()` fails the
loop body `continue`s, so the source file produces no job and
`|Expand(S, I)| < |I|`. -/
theorem claimC7_counterexample :
    (Scheme.Expand ⟨"enc", "cmd"⟩ ["a.mp4"] "out" none).length ≠
      (["a.mp4"] : List String).length := by
  decide

/-- C7 (amended): provided the working-directory query at expansion time
succeeds, `Expand(S, I)` produces exactly `|I|` jobs, and each job's
`CompressedFile`/`OutputFile`/`LogFile` share the base path
`outDir ⊕ normalize(basename-without-extension(SourceFile)) ++ "_" ++
normalize(S.Name)`, with `OutputFile = base ++ ".out"` and
`LogFile = base ++ ".log"` (and `CompressedFile = base ++ ext`).  When the
query fails, source files are skipped and fewer jobs are produced. -/
theorem claimC7_expand (s : Scheme) (files : List String) (outDir wd : String) :
    (s.Expand files outDir (some wd)).length = files.length ∧
    ∀ c ∈ s.Expand files outDir (some wd),
      c.CompressedFile =
        pathJoin outDir
          (normalize (trimSuffix (pathBase c.SourceFile)
            (filepathExt (pathBase c.SourceFile))) ++ "_" ++ normalize s.Name) ++
          compressedExtOf s.CommandTpl ∧
      c.OutputFile =
        pathJoin outDir
          (normalize (trimSuffix (pathBase c.SourceFile)
            (filepathExt (pathBase c.SourceFile))) ++ "_" ++ normalize s.Name) ++
          ".out" ∧
      c.LogFile =
        pathJoin outDir
          (normalize (trimSuffix (pathBase c.SourceFile)
            (filepathExt (pathBase c.SourceFile))) ++ "_" ++ normalize s.Name) ++
          ".log" := by
  rw [expand_some_eq]
  refine ⟨List.length_map _ _, ?_⟩
  intro c hc
  rw [List.mem_map] at hc
  obtain ⟨f, _, rfl⟩ := hc
  exact ⟨rfl, rfl, rfl⟩

theorem splitAfterSubstr_append (p0 : Char) (ptail : List Char) (a t : List Char)
    (ha : p0 ∉ a) :
    splitAfterSubstr (p0 :: ptail) (a ++ ((p0 :: ptail) ++ t)) = some t := by
  induction a with
  | nil =>
    show splitAfterSubstr (p0 :: ptail) (p0 :: (ptail ++ t)) = some t
    rw [splitAfterSubstr]
    rw [if_pos (by rw [List.isPrefixOf_iff_prefix]; exact List.prefix_append _ t)]
    show some ((ptail ++ t).drop ptail.length) = some t
    rw [List.drop_left]
  | cons c a2 ih =>
    have hc : p0 ≠ c := fun h => ha (h ▸ List.mem_cons_self c a2)
    have ha2 : p0 ∉ a2 := fun h => ha (List.mem_cons_of_mem c h)
    show splitAfterSubstr (p0 :: ptail) (c :: (a2 ++ ((p0 :: ptail) ++ t))) = some t
    rw [splitAfterSubstr]
    rw [if_neg (fun hcontra => by
      rw [List.isPrefixOf_iff_prefix, List.cons_prefix_cons] at hcontra
      exact hc hcontra.1)]
    exact ih ha2

theorem takeWhile_word_append (w b : List Char)
    (hw : ∀ c ∈ w, isWordChar c = true)
    (hb : ∀ c, b.head? = some c → isWordChar c = false) :
    (w ++ b).takeWhile isWordChar = w ∧ (w ++ b).dropWhile isWordChar = b := by
  induction w with
  | nil =>
    cases b with
    | nil => exact ⟨rfl, rfl⟩
    | cons c bs =>
      simp only [List.nil_append, List.takeWhile_cons, List.dropWhile_cons,
        hb c rfl]
      exact ⟨rfl, rfl⟩
  | cons c w2 ih =>
    have hcw := hw c (List.mem_cons_self c w2)
    have hw2 := fun x hx => hw x (List.mem_cons_of_mem c hx)
    obtain ⟨ih1, ih2⟩ := ih hw2
    simp only [List.cons_append, List.takeWhile_cons, List.dropWhile_cons, hcw,
      if_true]
    exact ⟨by rw [ih1], by rw [ih2]⟩

theorem parseExtCompsAux_nil (fuel : Nat) (cs : List Char)
    (h : cs.head? ≠ some '.') : parseExtCompsAux fuel cs = [] := by
  cases fuel with
  | zero => rfl
  | succ k =>
    cases cs with
    | nil => rfl
    | cons c rest =>
      rw [parseExtCompsAux.eq_def]
      split
      · rfl
      · rename_i heq
        exact absurd (by rw [List.cons.injEq] at heq; rw [heq.1]; rfl :
          (c :: rest : List Char).head? = some '.') h
      · rfl

/-- When the template is "anything without a percent sign, then the output
placeholder, then a single literal dotted suffix of word characters, then
anything that resumes with a non-word, non-dot character (or nothing)",
the extracted extension is exactly that suffix. -/
theorem compressedExtOf_single (a w b : String)
    (ha : '%' ∉ a.data)
    (hw1 : w.data ≠ []) (hw2 : ∀ c ∈ w.data, isWordChar c = true)
    (hb : ∀ c, b.data.head? = some c → isWordChar c = false ∧ c ≠ '.') :
    compressedExtOf (a ++ "%OUTPUT%" ++ "." ++ w ++ b) = "." ++ w := by
  unfold compressedExtOf
  have hdata : (a ++ "%OUTPUT%" ++ "." ++ w ++ b).data =
      a.data ++ (('%' :: "OUTPUT%".data) ++ ('.' :: (w.data ++ b.data))) := by
    show a.data ++ "%OUTPUT%".data ++ ".".data ++ w.data ++ b.data = _
    simp [List.append_assoc]
  rw [hdata, splitAfterSubstr_append '%' _ a.data _ ha]
  show (parseExtCompsAux ((w.data ++ b.data).length + 1)
    ('.' :: (w.data ++ b.data))).getLastD "" = "." ++ w
  obtain ⟨ht, hd⟩ := takeWhile_word_append w.data b.data hw2
    (fun c hc => (hb c hc).1)
  rw [parseExtCompsAux]
  simp only [ht, hd]
  rw [if_neg hw1]
  rw [parseExtCompsAux_nil _ _
    (fun hcontra => absurd rfl (hb '.' hcontra).2)]
  rfl

/-- When nothing that looks like a dotted suffix follows the placeholder,
no extension is extracted. -/
theorem compressedExtOf_none (a b : String)
    (ha : '%' ∉ a.data) (hb : b.data.head? ≠ some '.') :
    compressedExtOf (a ++ "%OUTPUT%" ++ b) = "" := by
  unfold compressedExtOf
  have hdata : (a ++ "%OUTPUT%" ++ b).data =
      a.data ++ (('%' :: "OUTPUT%".data) ++ b.data) := by
    show a.data ++ "%OUTPUT%".data ++ b.data = _
    simp [List.append_assoc]
  rw [hdata, splitAfterSubstr_append '%' _ a.data _ ha]
  show (parseExtCompsAux b.data.length b.data).getLastD "" = ""
  rw [parseExtCompsAux_nil _ _ hb]
  rfl

/-- C8 is corrected by this counterexample: for the template
`"cmd %INPUT% %OUTPUT%.tar.gz"` the literal extension suffix following the
placeholder is `".tar.gz"`, but the code's regexp submatch keeps only the
**last** repetition of the group `(\.\w+)*`, producing `"out/a_enc.gz"`
instead of `"out/a_enc.tar.gz"`. -/
theorem claimC8_counterexample :
    (Scheme.Expand ⟨"enc", "cmd %INPUT% %OUTPUT%.tar.gz"⟩ ["a.mp4"] "out"
        (some "/wd")).map (fun c => c.CompressedFile) = ["out/a_enc.gz"] ∧
    ("out/a_enc.gz" : String) ≠ "out/a_enc.tar.gz" := by
  refine ⟨by decide, by decide⟩

/-- C8 (amended): expanding `Scheme{"enc", "cmd %INPUT% %OUTPUT%.mp4"}`
against `["a.mp4", "b.mp4"]` into `"out"` yields compressed files
`"out/a_enc.mp4"` and `"out/b_enc.mp4"`; in general every produced job's
`CompressedFile` is its derived base plus the template-derived extension,
where a **single** literal dotted suffix after the placeholder is taken
verbatim and the absence of a suffix yields no extension (when several
dotted components follow, only the last one is kept — see the
counterexample). -/
theorem claimC8_expansion :
    (∀ wd : String,
      (Scheme.Expand ⟨"enc", "cmd %INPUT% %OUTPUT%.mp4"⟩ ["a.mp4", "b.mp4"]
        "out" (some wd)).map (fun c => c.CompressedFile) =
      ["out/a_enc.mp4", "out/b_enc.mp4"]) ∧
    (∀ (s : Scheme) (files : List String) (outDir wd : String),
      ∀ c ∈ s.Expand files outDir (some wd),
        c.CompressedFile =
          generateOutputFileNameBase c.SourceFile outDir s.Name ++
            compressedExtOf s.CommandTpl) ∧
    (∀ a w b : String, '%' ∉ a.data → w.data ≠ [] →
      (∀ c ∈ w.data, isWordChar c = true) →
      (∀ c, b.data.head? = some c → isWordChar c = false ∧ c ≠ '.') →
      compressedExtOf (a ++ "%OUTPUT%" ++ "." ++ w ++ b) = "." ++ w) ∧
    (∀ a b : String, '%' ∉ a.data → b.data.head? ≠ some '.' →
      compressedExtOf (a ++ "%OUTPUT%" ++ b) = "") := by
  refine ⟨fun _ => rfl, ?_, compressedExtOf_single, compressedExtOf_none⟩
  intro s files outDir wd c hc
  rw [expand_some_eq] at hc
  rw [List.mem_map] at hc
  obtain ⟨f, _, rfl⟩ := hc
  rfl

/-- C8 witness: the suffix rules evaluated at concrete templates. -/
theorem claimC8_expansion_witness :
    compressedExtOf ("cmd " ++ "%OUTPUT%" ++ "." ++ "mp4" ++ "") = "." ++ "mp4" ∧
    compressedExtOf ("cmd " ++ "%OUTPUT%" ++ " -f null") = "" :=
  ⟨claimC8_expansion.2.2.1 "cmd " "mp4" "" (by decide) (by decide) (by decide)
    (fun c hc => Option.noConfusion hc),
   claimC8_expansion.2.2.2 "cmd " " -f null" (by decide) (by decide)⟩

/-! ### Metric store -/

theorem member_iff (m : StoreMap) (k : Int) :
    StoreMap.member m k = true ↔ k ∈ m.map Prod.fst := by
  unfold StoreMap.member
  simp [List.any_eq_true, List.mem_map]

theorem assign_fresh (m : StoreMap) (k : Int) (v : Record)
    (h : StoreMap.member m k = false) :
    StoreMap.assign m k v = m ++ [(k, v)] := by
  unfold StoreMap.assign
  rw [h]
  rfl

theorem assign_keys_of_member (m : StoreMap) (k : Int) (v : Record)
    (h : StoreMap.member m k = true) :
    (StoreMap.assign m k v).map Prod.fst = m.map Prod.fst := by
  unfold StoreMap.assign
  rw [h]
  simp only [if_true, List.map_map]
  refine List.map_congr_left ?_
  intro kv _
  by_cases hk : kv.1 = k
  · simp [Function.comp, hk]
  · simp [Function.comp, hk]

theorem assign_length_of_member (m : StoreMap) (k : Int) (v : Record)
    (h : StoreMap.member m k = true) :
    (StoreMap.assign m k v).length = m.length := by
  unfold StoreMap.assign
  rw [h]
  simp

theorem erase_of_not_member (m : StoreMap) (k : Int)
    (h : StoreMap.member m k = false) : StoreMap.erase m k = m := by
  induction m with
  | nil => rfl
  | cons kv rest ih =>
    unfold StoreMap.member at h
    rw [List.any_cons, Bool.or_eq_false_iff] at h
    unfold StoreMap.erase at ih ⊢
    rw [List.filter_cons, if_pos (by simpa using h.1), ih h.2]

theorem erase_length_of_member (m : StoreMap) (k : Int)
    (hmem : StoreMap.member m k = true) (hnd : (m.map Prod.fst).Nodup) :
    (StoreMap.erase m k).length + 1 = m.length := by
  induction m with
  | nil => simp [StoreMap.member] at hmem
  | cons kv rest ih =>
    rw [List.map_cons, List.nodup_cons] at hnd
    by_cases hk : kv.1 = k
    · have hrest : StoreMap.member rest k = false := by
        rw [Bool.eq_false_iff]
        intro hc
        exact hnd.1 (hk ▸ (member_iff rest k).mp hc)
      have he := erase_of_not_member rest k hrest
      unfold StoreMap.erase at he ⊢
      rw [List.filter_cons, if_neg (by simp [hk]), he]
      rfl
    · unfold StoreMap.member at hmem
      rw [List.any_cons, Bool.or_eq_true] at hmem
      have hmem2 : StoreMap.member rest k = true := by
        rcases hmem with h | h
        · exact absurd (by simpa using h) hk
        · exact h
      have hlen := ih hmem2 hnd.2
      unfold StoreMap.erase at hlen ⊢
      rw [List.filter_cons, if_pos (by simp [hk])]
      simp only [List.length_cons]
      omega

end Ease

namespace Ease


def idAt (i : Nat) : Int := wrap64 i

theorem idAt_succ (i : Nat) : wrap64 (idAt i + 1) = idAt (i + 1) := by
  unfold idAt wrap64
  push_cast
  omega

theorem idAt_inj (i j : Nat) (hi : i < 18446744073709551616)
    (hj : j < 18446744073709551616) (h : idAt i = idAt j) : i = j := by
  unfold idAt wrap64 at h
  omega

/-- The reachability invariant of a store that has performed `i` inserts:
`next` is the wrapped image of `i`, live keys are distinct, and every live
key was allocated by one of those inserts. -/
def StoreInvW (s : Store) (i : Nat) : Prop :=
  s.next = idAt i ∧ (s.records.map Prod.fst).Nodup ∧
  ∀ id ∈ s.records.map Prod.fst, ∃ j : Nat, j < i ∧ id = idAt j

theorem newStore_invW : StoreInvW NewStore 0 :=
  ⟨by decide, List.nodup_nil, fun _ h => absurd h (List.not_mem_nil _)⟩

theorem member_next_false (s : Store) (i : Nat) (hinv : StoreInvW s i)
    (hi : i < 18446744073709551616) :
    StoreMap.member s.records s.next = false := by
  rw [Bool.eq_false_iff]
  intro hc
  obtain ⟨j, hj, he⟩ := hinv.2.2 _ ((member_iff _ _).mp hc)
  have : i = j := idAt_inj i j hi (lt_trans hj hi) (hinv.1.symm.trans he)
  omega

theorem insert_records_w (s : Store) (r : Record) (i : Nat)
    (hinv : StoreInvW s i) (hi : i < 18446744073709551616) :
    (s.Insert r).1.records = s.records ++ [(s.next, r)] :=
  assign_fresh _ _ _ (member_next_false s i hinv hi)

theorem insert_invW (s : Store) (r : Record) (i : Nat)
    (hinv : StoreInvW s i) (hi : i < 18446744073709551616) :
    StoreInvW (s.Insert r).1 (i + 1) := by
  obtain ⟨hn, hnd, hcov⟩ := hinv
  refine ⟨?_, ?_, ?_⟩
  · show wrap64 (s.next + 1) = idAt (i + 1)
    rw [hn, idAt_succ]
  · rw [insert_records_w s r i ⟨hn, hnd, hcov⟩ hi, List.map_append,
      List.nodup_append]
    refine ⟨hnd, List.nodup_singleton _, ?_⟩
    intro x hx
    simp only [List.map_cons, List.map_nil, List.mem_singleton]
    intro he
    obtain ⟨j, hj, hx2⟩ := hcov x hx
    have : i = j := idAt_inj i j hi (lt_trans hj hi)
      (by rw [← hn, ← he, hx2])
    omega
  · intro id hid
    rw [insert_records_w s r i ⟨hn, hnd, hcov⟩ hi, List.map_append,
      List.mem_append] at hid
    rcases hid with h | h
    · obtain ⟨j, hj, he⟩ := hcov id h
      exact ⟨j, by omega, he⟩
    · simp only [List.map_cons, List.map_nil, List.mem_singleton] at h
      exact ⟨i, by omega, h.trans hn⟩

theorem delete_invW (s : Store) (id : Int) (i : Nat) (hinv : StoreInvW s i) :
    StoreInvW (s.Delete id).1 i := by
  obtain ⟨hn, hnd, hcov⟩ := hinv
  unfold Store.Delete
  by_cases hm : StoreMap.member s.records id
  · rw [if_pos hm]
    refine ⟨hn, hnd.sublist ((List.filter_sublist _).map Prod.fst), ?_⟩
    intro x hx
    rw [List.mem_map] at hx
    obtain ⟨kv, hkv, he⟩ := hx
    exact hcov x (he ▸ List.mem_map.mpr
      ⟨kv, (List.filter_sublist _).subset hkv, rfl⟩)
  · rw [if_neg hm]
    exact ⟨hn, hnd, hcov⟩

theorem update_invW (s : Store) (id : Int) (r : Record) (i : Nat)
    (hinv : StoreInvW s i) : StoreInvW (s.Update id r).1 i := by
  obtain ⟨hn, hnd, hcov⟩ := hinv
  unfold Store.Update
  by_cases hm : StoreMap.member s.records id
  · rw [if_pos hm]
    refine ⟨hn, ?_, ?_⟩
    · rw [assign_keys_of_member _ _ _ hm]
      exact hnd
    · intro x hx
      rw [assign_keys_of_member _ _ _ hm] at hx
      exact hcov x hx
  · rw [if_neg hm]
    exact ⟨hn, hnd, hcov⟩

theorem run_invW (ops : List StoreOp) :
    ∀ (s : Store) (i : Nat), StoreInvW s i →
      i + insertCount ops ≤ 18446744073709551616 →
      StoreInvW (s.run ops) (i + insertCount ops) := by
  induction ops with
  | nil =>
    intro s i h _
    simpa [insertCount] using h
  | cons op rest ih =>
    intro s i hinv hb
    cases op with
    | insert r =>
      have hcnt : insertCount (StoreOp.insert r :: rest) =
        insertCount rest + 1 := rfl
      have hi : i < 18446744073709551616 := by rw [hcnt] at hb; omega
      have h2 := ih (s.applyOp (StoreOp.insert r)) (i + 1)
        (insert_invW s r i hinv hi) (by rw [hcnt] at hb; omega)
      have he : i + 1 + insertCount rest =
          i + insertCount (StoreOp.insert r :: rest) := by rw [hcnt]; omega
      exact he ▸ h2
    | delete id =>
      exact ih (s.applyOp (StoreOp.delete id)) i (delete_invW s id i hinv) hb
    | update id r =>
      exact ih (s.applyOp (StoreOp.update id r)) i (update_invW s id r i hinv) hb
    | get id => exact ih s i hinv hb
    | existsOp id => exact ih s i hinv hb

theorem run_length_w (ops : List StoreOp) :
    ∀ (s : Store) (i : Nat), StoreInvW s i →
      i + insertCount ops ≤ 18446744073709551616 →
      (s.run ops).records.length + s.deleteOkCount ops =
        s.records.length + insertCount ops := by
  induction ops with
  | nil => intro s i _ _; rfl
  | cons op rest ih =>
    intro s i hinv hb
    cases op with
    | insert r =>
      have hcnt : insertCount (StoreOp.insert r :: rest) =
        insertCount rest + 1 := rfl
      have hi : i < 18446744073709551616 := by rw [hcnt] at hb; omega
      have hnext := ih (s.applyOp (StoreOp.insert r)) (i + 1)
        (insert_invW s r i hinv hi) (by rw [hcnt] at hb; omega)
      have hlen : (s.applyOp (StoreOp.insert r)).records.length =
          s.records.length + 1 := by
        show (s.Insert r).1.records.length = _
        rw [insert_records_w s r i hinv hi]
        simp
      simp only [Store.run, Store.deleteOkCount, insertCount]
      omega
    | delete id =>
      have hnext := ih (s.applyOp (StoreOp.delete id)) i
        (delete_invW s id i hinv) hb
      simp only [Store.run, Store.deleteOkCount, insertCount]
      by_cases hm : StoreMap.member s.records id
      · have hlen : (s.applyOp (StoreOp.delete id)).records.length + 1 =
            s.records.length := by
          show (s.Delete id).1.records.length + 1 = _
          unfold Store.Delete
          rw [if_pos hm]
          exact erase_length_of_member _ _ hm hinv.2.1
        rw [if_pos hm]
        omega
      · have hlen : (s.applyOp (StoreOp.delete id)).records.length =
            s.records.length := by
          show (s.Delete id).1.records.length = _
          unfold Store.Delete
          rw [if_neg hm]
        rw [if_neg hm]
        omega
    | update id r =>
      have hnext := ih (s.applyOp (StoreOp.update id r)) i
        (update_invW s id r i hinv) hb
      have hlen : (s.applyOp (StoreOp.update id r)).records.length =
          s.records.length := by
        show (s.Update id r).1.records.length = _
        unfold Store.Update
        by_cases hm : StoreMap.member s.records id
        · rw [if_pos hm]
          exact assign_length_of_member _ _ _ hm
        · rw [if_neg hm]
      simp only [Store.run, Store.deleteOkCount, insertCount]
      omega
    | get id =>
      have hnext := ih s i hinv hb
      simp only [Store.run, Store.deleteOkCount, insertCount]
      show (Store.run s rest).records.length + (Store.deleteOkCount s rest + 0) =
        s.records.length + (insertCount rest + 0)
      omega
    | existsOp id =>
      have hnext := ih s i hinv hb
      simp only [Store.run, Store.deleteOkCount, insertCount]
      show (Store.run s rest).records.length + (Store.deleteOkCount s rest + 0) =
        s.records.length + (insertCount rest + 0)
      omega

theorem allocIds_eq (ops : List StoreOp) :
    ∀ (s : Store) (i : Nat), s.next = idAt i →
      s.allocIds ops = (List.range' i (insertCount ops)).map idAt := by
  induction ops with
  | nil => intro s i _; rfl
  | cons op rest ih =>
    intro s i hn
    cases op with
    | insert r =>
      show s.next :: Store.allocIds (s.Insert r).1 rest = _
      have hn2 : (s.Insert r).1.next = idAt (i + 1) := by
        show wrap64 (s.next + 1) = _
        rw [hn, idAt_succ]
      rw [ih (s.Insert r).1 (i + 1) hn2, hn]
      rfl
    | delete id =>
      have hn2 : (s.applyOp (StoreOp.delete id)).next = idAt i := by
        show (s.Delete id).1.next = _
        unfold Store.Delete
        by_cases hm : StoreMap.member s.records id
        · rw [if_pos hm]
          exact hn
        · rw [if_neg hm]
          exact hn
      exact ih _ i hn2
    | update id r =>
      have hn2 : (s.applyOp (StoreOp.update id r)).next = idAt i := by
        show (s.Update id r).1.next = _
        unfold Store.Update
        by_cases hm : StoreMap.member s.records id
        · rw [if_pos hm]
          exact hn
        · rw [if_neg hm]
          exact hn
      exact ih _ i hn2
    | get id => exact ih s i hn
    | existsOp id => exact ih s i hn

theorem insertCount_replicate (n : Nat) (r : Record) :
    insertCount (List.replicate n (StoreOp.insert r)) = n := by
  induction n with
  | zero => rfl
  | succ k ih => simp only [List.replicate_succ, insertCount, ih]

/-- C2 is corrected by this counterexample: `next` is a Go `int64`, so
after 2^64 + 1 inserts the wrapped counter has come full circle and the
first and last `Insert` hand out the same identifier — "never allocated
again by any later Insert" fails on a long enough history. -/
theorem claimC2_counterexample :
    ¬ (NewStore.allocIds
        (List.replicate 18446744073709551617 (StoreOp.insert {}))).Nodup := by
  rw [allocIds_eq _ NewStore 0 (by decide), insertCount_replicate]
  intro hnd
  have h0 : (0 : Nat) ∈ List.range' 0 18446744073709551617 :=
    List.mem_range'_1.mpr (by omega)
  have h1 : (18446744073709551616 : Nat) ∈ List.range' 0 18446744073709551617 :=
    List.mem_range'_1.mpr (by omega)
  have heq : idAt 18446744073709551616 = idAt 0 := by decide
  have := List.inj_on_of_nodup_map hnd h1 h0 heq
  omega

/-- C2 (amended): over every operation history from `NewStore()` with at
most 2^64 `Insert`s (the point at which the wrapping `int64` counter
returns to a previously issued value), no two simultaneously live records
share an identifier, an identifier handed out by `Insert` is never handed
out again by a later `Insert` (even after deletion), and the number of
live identifiers equals the number of inserts minus the number of
successful deletes.  Beyond that bound the counter wraps and identifiers
repeat (see the counterexample). -/
theorem claimC2_store_invariants (ops : List StoreOp)
    (hbound : insertCount ops ≤ 18446744073709551616) :
    (NewStore.run ops).GetIDs.Nodup ∧
    (NewStore.allocIds ops).Nodup ∧
    NewStore.deleteOkCount ops ≤ insertCount ops ∧
    (NewStore.run ops).GetIDs.length =
      insertCount ops - NewStore.deleteOkCount ops := by
  have hlen := run_length_w ops NewStore 0 newStore_invW (by omega)
  have hinv := run_invW ops NewStore 0 newStore_invW (by omega)
  have hids : (NewStore.run ops).GetIDs.length =
      (NewStore.run ops).records.length := List.length_map _ _
  have hnil : (NewStore.records).length = 0 := rfl
  refine ⟨hinv.2.1, ?_, by omega, by omega⟩
  rw [allocIds_eq ops NewStore 0 (by decide)]
  refine (List.nodup_map_iff_inj_on (List.nodup_range' 0 _)).mpr ?_
  intro x hx y hy hxy
  rw [List.mem_range'_1] at hx hy
  exact idAt_inj x y (by omega) (by omega) hxy

/-- C2 witness: the amended statement evaluated on a small concrete
history (two inserts and one successful delete). -/
theorem claimC2_store_invariants_witness :
    (NewStore.run [StoreOp.insert {}, StoreOp.insert {},
      StoreOp.delete 0]).GetIDs.Nodup ∧
    (NewStore.run [StoreOp.insert {}, StoreOp.insert {},
        StoreOp.delete 0]).GetIDs.length =
      insertCount [StoreOp.insert {}, StoreOp.insert {}, StoreOp.delete 0] -
        NewStore.deleteOkCount
          [StoreOp.insert {}, StoreOp.insert {}, StoreOp.delete 0] :=
  have h := claimC2_store_invariants
    [StoreOp.insert {}, StoreOp.insert {}, StoreOp.delete 0] (by decide)
  ⟨h.1, h.2.2.2⟩

end Ease
